import Mathlib

/-!
Shallow embedding of the text-size-reduction engine of
`src/plugins/tool-output-truncator.js`.

A JavaScript string is modelled as a `List Char` of Unicode scalar values:
`length` models the string's character count and `byteLength` its UTF-8
byte count (per-scalar widths 1..4, matching `Buffer.byteLength(s, "utf8")`).
JavaScript numbers are modelled as `Nat`; every `Math.max(0, a - b)` in the
source coincides with truncated `Nat` subtraction, which is noted at each use.
The float expression `Math.floor(maxLines * 0.15)` is modelled as
`maxLines * 15 / 100`; the two agree away from negligible double rounding
(and exactly at every value any claim touches).
-/

set_option autoImplicit false
set_option maxRecDepth 8000

abbrev JSStr := List Char

/-- Width in bytes of one Unicode scalar value in UTF-8. -/
def utf8CharBytes (c : Char) : Nat :=
  if c.toNat < 128 then 1
  else if c.toNat < 2048 then 2
  else if c.toNat < 65536 then 3
  else 4

/-- UTF-8 byte length of a string, as `Buffer.byteLength(text, "utf8")`. -/
def byteLength (s : JSStr) : Nat := (s.map utf8CharBytes).sum

/-- Source `countLines`: 1 for the empty string, else newline count + 1
(the semantics of `text.split("\n").length`). -/
def countLines (s : JSStr) : Nat := if s = [] then 1 else 1 + s.count '\n'

/-- The line list of a string: `text.split("\n")` semantics (a trailing
newline yields a trailing empty line; never returns `[]`). -/
def splitLines : JSStr → List JSStr
  | [] => [[]]
  | c :: rest =>
    if c = '\n' then [] :: splitLines rest
    else
      match splitLines rest with
      | [] => [[c]]
      | l :: ls => (c :: l) :: ls

/-- Source `out.join("\n")`. -/
def joinLines : List JSStr → JSStr
  | [] => []
  | [l] => l
  | l :: ls => l ++ '\n' :: joinLines ls

/-- Structural helper for `natChars`; `fuel` only forces termination and
`fuel = n` is always enough since the value shrinks by a factor 10. -/
def natCharsAux : Nat → Nat → List Char
  | _, 0 => []
  | n, fuel + 1 =>
    if n < 10 then [Char.ofNat (48 + n)]
    else natCharsAux (n / 10) fuel ++ [Char.ofNat (48 + n % 10)]

/-- Decimal rendering of a natural number, as JavaScript template
interpolation of a nonnegative integer. -/
def natChars (n : Nat) : List Char := natCharsAux n (n + 1)

/-- Source `getSizeMeta` record. -/
structure SizeMeta where
  totalChars : Nat
  totalBytes : Nat
  totalLines : Nat
deriving DecidableEq

/-- The limits record handed to the engine.  The field `marker` embeds the
source's `markerPrefix` configuration string. -/
structure Limits where
  maxChars : Nat
  maxBytes : Nat
  maxLines : Nat
  compressRepeats : Bool
  compressBlockMaxSize : Nat
  compressBlockMaxScanLines : Nat
  marker : JSStr
deriving DecidableEq

/-- Source `getSizeMeta`. -/
def getSizeMeta (text : JSStr) : SizeMeta :=
  ⟨text.length, byteLength text, countLines text⟩

/-- Source `isWithinLimits`. -/
def isWithinLimits (meta : SizeMeta) (limits : Limits) : Prop :=
  meta.totalChars ≤ limits.maxChars ∧ meta.totalBytes ≤ limits.maxBytes ∧
    meta.totalLines ≤ limits.maxLines

instance (meta : SizeMeta) (limits : Limits) : Decidable (isWithinLimits meta limits) := by
  unfold isWithinLimits; infer_instance

/-- The marker line `"<pfx> repeated previous line <n> more times <pfx>"`. -/
def dupMarker (pfx : JSStr) (n : Nat) : JSStr :=
  pfx ++ " repeated previous line ".data ++ natChars n ++ " more times ".data ++ pfx

/-- Result record of `compressConsecutiveDuplicateLines`. -/
structure DupResult where
  text : JSStr
  collapsedLineRuns : Nat
  collapsedLines : Nat
deriving DecidableEq

/-- What the source loop pushes when a run `(line, repeatCount)` ends. -/
def dupFlush (pfx : JSStr) (line : JSStr) (repeatCount : Nat) : List JSStr :=
  if 1 < repeatCount then [line, dupMarker pfx (repeatCount - 1)] else [line]

/-- The scanning loop of `compressConsecutiveDuplicateLines`: the pending run
is `(prevLine, repeatCount)` and `rest` the lines still to scan.  Returns the
output lines together with `(collapsedLineRuns, collapsedLines)`. -/
def dupLoop (pfx : JSStr) (prevLine : JSStr) (repeatCount : Nat) :
    List JSStr → List JSStr × Nat × Nat
  | [] =>
    (dupFlush pfx prevLine repeatCount,
     if 1 < repeatCount then 1 else 0,
     if 1 < repeatCount then repeatCount - 1 else 0)
  | line :: rest =>
    if line = prevLine then dupLoop pfx prevLine (repeatCount + 1) rest
    else
      let r := dupLoop pfx line 1 rest
      (dupFlush pfx prevLine repeatCount ++ r.1,
       (if 1 < repeatCount then 1 else 0) + r.2.1,
       (if 1 < repeatCount then repeatCount - 1 else 0) + r.2.2)

/-- Source `compressConsecutiveDuplicateLines(text, { markerPrefix })`. -/
def compressConsecutiveDuplicateLines (text : JSStr) (pfx : JSStr) : DupResult :=
  if text = [] then ⟨text, 0, 0⟩
  else
    match splitLines text with
    | [] => ⟨text, 0, 0⟩      -- unreachable: `splitLines` never returns `[]`
    | first :: rest =>
      let r := dupLoop pfx first 1 rest
      ⟨joinLines r.1, r.2.1, r.2.2⟩

/-- Source `blocksEqual(lines, startA, startB, size)`: element-wise equality
of `lines[a..a+size)` and `lines[b..b+size)` (every call site is in range,
where this coincides with the source's indexed loop). -/
def blocksEqual (lines : List JSStr) (a b size : Nat) : Prop :=
  (lines.drop a).take size = (lines.drop b).take size

instance (lines : List JSStr) (a b size : Nat) : Decidable (blocksEqual lines a b size) := by
  unfold blocksEqual; infer_instance

/-- The marker line `"<pfx> repeated previous <size> lines <more> more times <pfx>"`. -/
def blockMarker (pfx : JSStr) (size more : Nat) : JSStr :=
  pfx ++ " repeated previous ".data ++ natChars size ++ " lines ".data ++
    natChars more ++ " more times ".data ++ pfx

/-- The inner `while` of the block compressor: counts consecutive copies of
the block at `i`, starting from candidate count `blocks`.  `fuel` bounds the
iterations; every call supplies `lines.length + 1`, which exceeds the number
of iterations the guard `i + blocks * size ≤ lines.length` permits. -/
def extendBlocks (lines : List JSStr) (i size : Nat) : Nat → Nat → Nat
  | blocks, 0 => blocks
  | blocks, fuel + 1 =>
    if i + blocks * size ≤ lines.length ∧ blocksEqual lines i (i + (blocks - 1) * size) size
    then extendBlocks lines i size (blocks + 1) fuel
    else blocks

/-- The inner `for` of the block compressor: try block sizes from `size`
down to 2, returning `(matchedSize, matchedBlocks)` (`(0, 0)` if none). -/
def findBlock (lines : List JSStr) (i : Nat) : Nat → Nat × Nat
  | 0 => (0, 0)
  | 1 => (0, 0)
  | size + 2 =>
    if blocksEqual lines i (i + (size + 2)) (size + 2) then
      (size + 2, extendBlocks lines i (size + 2) 2 (lines.length + 1) - 1)
    else findBlock lines i (size + 1)

/-- Result record of `compressConsecutiveRepeatedBlocks`. -/
structure BlockResult where
  text : JSStr
  collapsedBlocks : Nat
  collapsedBlockRepeats : Nat
  skipped : Bool
deriving DecidableEq

/-- The outer `while (i < lines.length)` of the block compressor.  `fuel`
bounds the iterations; the initial call supplies `lines.length`, which is
enough because every iteration advances `i` by at least 1. -/
def blockLoop (lines : List JSStr) (pfx : JSStr) (maxBlockSize : Nat) :
    Nat → Nat → List JSStr × Nat × Nat
  | _, 0 => ([], 0, 0)
  | i, fuel + 1 =>
    if i < lines.length then
      let maxSize := min maxBlockSize ((lines.length - i) / 2)
      let fb := findBlock lines i maxSize
      if 0 < fb.1 ∧ 2 ≤ fb.2 then
        let more := fb.2 - 1
        let r := blockLoop lines pfx maxBlockSize (i + fb.2 * fb.1) fuel
        ((lines.drop i).take fb.1 ++ blockMarker pfx fb.1 more :: r.1,
         1 + r.2.1, more + r.2.2)
      else
        let r := blockLoop lines pfx maxBlockSize (i + 1) fuel
        (lines.getD i [] :: r.1, r.2.1, r.2.2)
    else ([], 0, 0)

/-- Source `compressConsecutiveRepeatedBlocks(text, { markerPrefix,
maxBlockSize, maxScanLines })`. -/
def compressConsecutiveRepeatedBlocks (text : JSStr) (pfx : JSStr)
    (maxBlockSize maxScanLines : Nat) : BlockResult :=
  let totalLines := countLines text
  if maxScanLines < totalLines then ⟨text, 0, 0, true⟩
  else
    let lines := splitLines text
    let r := blockLoop lines pfx maxBlockSize 0 lines.length
    ⟨joinLines r.1, r.2.1, r.2.2, false⟩

/-- Source `clampInt(value, min, max) = Math.max(min, Math.min(max, value))`. -/
def clampInt (value lo hi : Nat) : Nat := max lo (min hi value)

/-- Source `computeKeepLineCounts(totalLines, maxLines)`.  `budget` is
`Math.max(0, maxLines - 1)` (truncated subtraction).  `keepTail` is
`Math.max(0, Math.min(totalLines - keepHead, budget - keepHead))`: since
`keepHead ≤ totalLines`, the first argument is nonnegative, and truncating
the second at zero commutes with the `min`/`max`. -/
def computeKeepLineCounts (totalLines maxLines : Nat) : Nat × Nat :=
  let budget := maxLines - 1
  if budget = 0 then (0, 0)
  else
    let desiredHead := clampInt (maxLines * 15 / 100) 10 50
    let keepHead := min desiredHead (max 0 totalLines)
    let keepTail := min (totalLines - keepHead) (budget - keepHead)
    (keepHead, keepTail)

/-- Helper for the head/tail slicers: the strict prefix before the `keep`-th
newline, or the whole string when it has fewer than `keep` newlines — the
behaviour of the source's repeated `indexOf("\n")` scan. -/
def takeLines (keep : Nat) : JSStr → JSStr
  | [] => []
  | c :: rest =>
    if c = '\n' then
      if keep = 1 then [] else c :: takeLines (keep - 1) rest
    else c :: takeLines keep rest

/-- Source `sliceHeadLines(text, keep, totalLines)`. -/
def sliceHeadLines (text : JSStr) (keep totalLines : Nat) : JSStr :=
  if keep = 0 then []
  else if totalLines ≤ keep then text
  else takeLines keep text

/-- Source `sliceTailLines(text, keep)`: the suffix after the `keep`-th
newline counted from the end, or the whole string when it has fewer than
`keep` newlines.  Scanning backward is reading the reversed string forward. -/
def sliceTailLines (text : JSStr) (keep : Nat) : JSStr :=
  if keep = 0 then []
  else (takeLines keep text.reverse).reverse

/-- The marker line `"<pfx> omitted <omitted> lines <pfx>"`. -/
def omissionMarker (pfx : JSStr) (omitted : Nat) : JSStr :=
  pfx ++ " omitted ".data ++ natChars omitted ++ " lines ".data ++ pfx

/-- The hard-cap marker `"<pfx> truncated to <maxChars> chars / <maxBytes>
bytes <pfx>"`. -/
def hardMarker (limits : Limits) : JSStr :=
  limits.marker ++ " truncated to ".data ++ natChars limits.maxChars ++
    " chars / ".data ++ natChars limits.maxBytes ++ " bytes ".data ++ limits.marker

/-- The `meta` record of `truncateText`; the last three fields are present
only on the truncating return (modelled with `Option`). -/
structure TruncMeta where
  totalChars : Nat
  totalBytes : Nat
  totalLines : Nat
  keptHeadLines : Option Nat
  keptTailLines : Option Nat
  omittedLines : Option Nat
deriving DecidableEq

/-- Full result of `truncateText`. -/
structure TruncResult where
  truncated : Bool
  text : JSStr
  meta : TruncMeta
deriving DecidableEq

/-- The source's local `omitted = Math.max(0, totalLines - keepHead - keepTail)`
(truncated subtraction). -/
def omittedCount (text : JSStr) (maxLines : Nat) : Nat :=
  let kc := computeKeepLineCounts (countLines text) maxLines
  countLines text - kc.1 - kc.2

/-- The source's local `candidate`: head, omission marker and tail when
anything was omitted, the input text otherwise. -/
def lineCandidate (text : JSStr) (limits : Limits) : JSStr :=
  let totalLines := countLines text
  let kc := computeKeepLineCounts totalLines limits.maxLines
  if 0 < omittedCount text limits.maxLines then
    sliceHeadLines text kc.1 totalLines ++ '\n' ::
      (omissionMarker limits.marker (omittedCount text limits.maxLines) ++ '\n' ::
        sliceTailLines text kc.2)
  else text

/-- The hard char/byte cap applied to `candidate`; `room` is
`Math.max(0, maxChars - hardMarker.length - 2)` (truncated subtraction). -/
def hardCapped (candidate : JSStr) (limits : Limits) : JSStr :=
  if limits.maxChars < candidate.length ∨ limits.maxBytes < byteLength candidate then
    candidate.take (limits.maxChars - (hardMarker limits).length - 2) ++
      '\n' :: hardMarker limits
  else candidate

/-- Source `truncateText(text, limits)`. -/
def truncateText (text : JSStr) (limits : Limits) : TruncResult :=
  let bytes := byteLength text
  let totalLines := countLines text
  if text.length ≤ limits.maxChars ∧ bytes ≤ limits.maxBytes ∧ totalLines ≤ limits.maxLines then
    ⟨false, text, ⟨text.length, bytes, totalLines, none, none, none⟩⟩
  else
    let kc := computeKeepLineCounts totalLines limits.maxLines
    ⟨true, hardCapped (lineCandidate text limits) limits,
     ⟨text.length, bytes, totalLines, some kc.1, some kc.2,
      some (omittedCount text limits.maxLines)⟩⟩

/-- The `compressionMeta` record assembled by `reduceText`. -/
structure CompressionMeta where
  collapsedLineRuns : Nat
  collapsedLines : Nat
  collapsedBlocks : Nat
  collapsedBlockRepeats : Nat
  blockCompressionSkipped : Bool
deriving DecidableEq

/-- The `ReductionResult` of the orchestrator, with the source's optional
`meta` fields modelled as `Option`. -/
structure ReduceResult where
  text : JSStr
  compressed : Bool
  truncated : Bool
  original : SizeMeta
  afterCompression : Option SizeMeta
  compression : Option CompressionMeta
  truncation : Option TruncMeta
deriving DecidableEq

/-- The compression stage of `reduceText`: the source's `currentText` and
`compressionMeta` after the two compressors have (conditionally) run. -/
def compressionStep (text : JSStr) (limits : Limits) : JSStr × Option CompressionMeta :=
  if limits.compressRepeats then
    let lc := compressConsecutiveDuplicateLines text limits.marker
    let bc := compressConsecutiveRepeatedBlocks lc.text limits.marker
      limits.compressBlockMaxSize limits.compressBlockMaxScanLines
    (bc.text,
     some (⟨lc.collapsedLineRuns, lc.collapsedLines, bc.collapsedBlocks,
       bc.collapsedBlockRepeats, bc.skipped⟩ : CompressionMeta))
  else (text, none)

/-- Source `reduceText(text, limits)`, the reduction orchestrator. -/
def reduceText (text : JSStr) (limits : Limits) : ReduceResult :=
  let originalMeta := getSizeMeta text
  if isWithinLimits originalMeta limits then
    ⟨text, false, false, originalMeta, none, none, none⟩
  else
    let currentText := (compressionStep text limits).1
    let didCompress := decide (currentText ≠ text)
    let afterCompressionMeta := getSizeMeta currentText
    if isWithinLimits afterCompressionMeta limits then
      ⟨currentText, didCompress, false, originalMeta,
       if didCompress then some afterCompressionMeta else none,
       if didCompress then (compressionStep text limits).2 else none, none⟩
    else
      ⟨(truncateText currentText limits).text, didCompress, true, originalMeta,
       if didCompress then some afterCompressionMeta else none,
       if didCompress then (compressionStep text limits).2 else none,
       some (truncateText currentText limits).meta⟩

/-! ## Basic facts about the line structure -/

theorem splitLines_ne_nil (s : JSStr) : splitLines s ≠ [] := by
  cases s with
  | nil => simp [splitLines]
  | cons c rest =>
    unfold splitLines
    split
    · simp
    · split <;> simp

theorem joinLines_cons (l : JSStr) (ls : List JSStr) (h : ls ≠ []) :
    joinLines (l :: ls) = l ++ '\n' :: joinLines ls := by
  cases ls with
  | nil => exact absurd rfl h
  | cons l2 ls2 => rfl

theorem joinLines_splitLines (s : JSStr) : joinLines (splitLines s) = s := by
  induction s with
  | nil => rfl
  | cons c rest ih =>
    unfold splitLines
    by_cases hc : c = '\n'
    · simp only [if_pos hc]
      rw [joinLines_cons _ _ (splitLines_ne_nil rest), ih, hc]
      rfl
    · simp only [if_neg hc]
      cases hsp : splitLines rest with
      | nil => exact absurd hsp (splitLines_ne_nil rest)
      | cons l ls =>
        rw [hsp] at ih
        cases ls with
        | nil => simpa [joinLines] using congrArg (c :: ·) ih
        | cons l2 ls2 =>
          rw [joinLines_cons (c :: l) _ (by simp)]
          rw [joinLines_cons l _ (by simp)] at ih
          simpa using congrArg (c :: ·) ih

theorem length_splitLines (s : JSStr) : (splitLines s).length = 1 + s.count '\n' := by
  induction s with
  | nil => rfl
  | cons c rest ih =>
    unfold splitLines
    by_cases hc : c = '\n'
    · subst hc
      simp [List.count_cons, ih]
      omega
    · simp only [if_neg hc]
      cases hsp : splitLines rest with
      | nil => exact absurd hsp (splitLines_ne_nil rest)
      | cons l ls =>
        rw [hsp] at ih
        simp only [List.length_cons] at ih ⊢
        simp [List.count_cons, hc]
        omega

theorem countLines_eq_length_splitLines (s : JSStr) : countLines s = (splitLines s).length := by
  rw [length_splitLines]
  unfold countLines
  split
  · subst s; rfl
  · rfl

theorem splitLines_no_newline (s : JSStr) :
    ∀ l ∈ splitLines s, '\n' ∉ l := by
  induction s with
  | nil => intro l hl; simp [splitLines] at hl; simp [hl]
  | cons c rest ih =>
    intro l hl
    unfold splitLines at hl
    by_cases hc : c = '\n'
    · rw [if_pos hc] at hl
      rcases List.mem_cons.1 hl with h | h
      · simp [h]
      · exact ih l h
    · rw [if_neg hc] at hl
      cases hsp : splitLines rest with
      | nil => exact absurd hsp (splitLines_ne_nil rest)
      | cons l0 ls =>
        rw [hsp] at hl
        rcases List.mem_cons.1 hl with h | h
        · subst h
          intro hmem
          rcases List.mem_cons.1 hmem with h | h
          · exact hc h.symm
          · exact ih l0 (hsp ▸ List.mem_cons_self _ _) h
        · exact ih l (hsp ▸ List.mem_cons_of_mem _ h)

theorem splitLines_chars (s : JSStr) :
    ∀ l ∈ splitLines s, ∀ c ∈ l, c ∈ s := by
  induction s with
  | nil => intro l hl c hc; simp [splitLines] at hl; simp [hl] at hc
  | cons a rest ih =>
    intro l hl c hc
    unfold splitLines at hl
    by_cases ha : a = '\n'
    · rw [if_pos ha] at hl
      rcases List.mem_cons.1 hl with h | h
      · subst h; simp at hc
      · exact List.mem_cons_of_mem _ (ih l h c hc)
    · rw [if_neg ha] at hl
      cases hsp : splitLines rest with
      | nil => exact absurd hsp (splitLines_ne_nil rest)
      | cons l0 ls =>
        rw [hsp] at hl
        rcases List.mem_cons.1 hl with h | h
        · subst h
          rcases List.mem_cons.1 hc with h | h
          · simp [h]
          · exact List.mem_cons_of_mem _ (ih l0 (hsp ▸ List.mem_cons_self _ _) c h)
        · exact List.mem_cons_of_mem _ (ih l (hsp ▸ List.mem_cons_of_mem _ h) c hc)

/-! ## Claims about the compressors that follow directly from the code -/

theorem dupLoop_distinct (pfx : JSStr) (rest : List JSStr) (prev : JSStr)
    (h : List.Chain' (· ≠ ·) (prev :: rest)) :
    dupLoop pfx prev 1 rest = (prev :: rest, 0, 0) := by
  induction rest generalizing prev with
  | nil => simp [dupLoop, dupFlush]
  | cons line rest ih =>
    have hne : ¬line = prev := fun e => (List.chain'_cons.1 h).1 e.symm
    have hrec := ih line (List.chain'_cons.1 h).2
    unfold dupLoop
    rw [if_neg hne]
    simp [hrec, dupFlush]

/-- Claim C10: when no two consecutive lines of the input are equal, the
duplicate-line compressor returns the input unchanged and reports zero
collapsed runs and zero collapsed lines. -/
theorem claim10_distinct_lines_identity (text pfx : JSStr)
    (h : List.Chain' (· ≠ ·) (splitLines text)) :
    compressConsecutiveDuplicateLines text pfx = ⟨text, 0, 0⟩ := by
  unfold compressConsecutiveDuplicateLines
  split
  · rfl
  · cases hsp : splitLines text with
    | nil => exact absurd hsp (splitLines_ne_nil text)
    | cons first rest =>
      rw [hsp] at h
      simp only [dupLoop_distinct pfx rest first h]
      have : joinLines (first :: rest) = text := by
        rw [← hsp, joinLines_splitLines]
      simp [this]

theorem splitLines_aba : splitLines "a\nb\na".data = [['a'], ['b'], ['a']] := by decide

theorem claim10_distinct_lines_identity_witness :
    List.Chain' (· ≠ ·) (splitLines "a\nb\na".data) ∧
      compressConsecutiveDuplicateLines "a\nb\na".data "---".data = ⟨"a\nb\na".data, 0, 0⟩ := by
  have hch : List.Chain' (· ≠ ·) (splitLines "a\nb\na".data) := by
    rw [splitLines_aba]
    simp only [List.chain'_cons, List.chain'_singleton, and_true]
    exact ⟨by decide, by decide⟩
  exact ⟨hch, claim10_distinct_lines_identity "a\nb\na".data "---".data hch⟩

/-- Claim C9: when the input has more lines than `maxScanLines`, the
repeated-block compressor skips entirely and returns the input unchanged
with `skipped = true` and zero counts. -/
theorem claim9_scan_guard (text pfx : JSStr) (maxBlockSize maxScanLines : Nat)
    (h : maxScanLines < countLines text) :
    compressConsecutiveRepeatedBlocks text pfx maxBlockSize maxScanLines =
      ⟨text, 0, 0, true⟩ := by
  unfold compressConsecutiveRepeatedBlocks
  simp [h]

theorem claim9_scan_guard_witness :
    3 < countLines "x\nx\nx\nx".data ∧
      compressConsecutiveRepeatedBlocks "x\nx\nx\nx".data "---".data 20 3 =
        ⟨"x\nx\nx\nx".data, 0, 0, true⟩ :=
  ⟨by decide, claim9_scan_guard "x\nx\nx\nx".data "---".data 20 3 (by decide)⟩

/-! ## Claims about the orchestrator's no-op paths -/

/-- Claim C3: an input already within limits is returned unchanged with
both flags false. -/
theorem claim3_within_limits_noop (text : JSStr) (limits : Limits)
    (h : isWithinLimits (getSizeMeta text) limits) :
    (reduceText text limits).text = text ∧
      (reduceText text limits).compressed = false ∧
      (reduceText text limits).truncated = false := by
  unfold reduceText
  simp [h]

theorem claim3_within_limits_noop_witness :
    isWithinLimits (getSizeMeta "hello\nworld".data) ⟨100, 100, 100, true, 20, 5000, "---".data⟩ ∧
      ((reduceText "hello\nworld".data ⟨100, 100, 100, true, 20, 5000, "---".data⟩).text =
          "hello\nworld".data ∧
        (reduceText "hello\nworld".data ⟨100, 100, 100, true, 20, 5000, "---".data⟩).compressed = false ∧
        (reduceText "hello\nworld".data ⟨100, 100, 100, true, 20, 5000, "---".data⟩).truncated = false) :=
  ⟨by decide, claim3_within_limits_noop "hello\nworld".data _ (by decide)⟩

/-- Claim C4: whenever the reported flags `compressed` and `truncated` are
both false, the returned text is the input itself. -/
theorem claim4_false_flags_identity (text : JSStr) (limits : Limits)
    (h1 : (reduceText text limits).compressed = false)
    (h2 : (reduceText text limits).truncated = false) :
    (reduceText text limits).text = text := by
  unfold reduceText at h1 h2 ⊢
  by_cases h : isWithinLimits (getSizeMeta text) limits
  · simp [h]
  · simp only [if_neg h] at h1 h2 ⊢
    by_cases h2' : isWithinLimits (getSizeMeta (compressionStep text limits).1) limits
    · simp only [if_pos h2'] at h1 ⊢
      simp only [decide_eq_false_iff_not, ne_eq, not_not] at h1
      exact h1
    · simp only [if_neg h2'] at h2
      exact absurd h2 (by simp)

theorem claim4_false_flags_identity_witness :
    (reduceText "ok".data ⟨10, 10, 10, true, 20, 5000, "---".data⟩).compressed = false ∧
      (reduceText "ok".data ⟨10, 10, 10, true, 20, 5000, "---".data⟩).truncated = false ∧
      (reduceText "ok".data ⟨10, 10, 10, true, 20, 5000, "---".data⟩).text = "ok".data :=
  ⟨by decide, by decide,
    claim4_false_flags_identity "ok".data _ (by decide) (by decide)⟩

/-! ## Concrete compressor behaviours (claims C7 and C8) -/

/-- Claim C7: five copies of the line `X` compress to the line followed by a
single run marker reporting 4 repeats, with `collapsedLineRuns = 1` and
`collapsedLines = 4`. -/
theorem claim7_five_x_lines :
    compressConsecutiveDuplicateLines "X\nX\nX\nX\nX".data "---".data =
      ⟨"X\n--- repeated previous line 4 more times ---".data, 1, 4⟩ := by decide

/-- Claim C8: the line sequence `[a, b, a, b, a, b, c]` compresses to
`[a, b, marker, c]` with one collapsed block of 2 extra repeats and
`skipped = false`. -/
theorem claim8_two_line_block :
    compressConsecutiveRepeatedBlocks "a\nb\na\nb\na\nb\nc".data "---".data 20 5000 =
      ⟨"a\nb\n--- repeated previous 2 lines 2 more times ---\nc".data, 1, 2, false⟩ := by
  decide

/-! ## Counterexamples to claims C1, C2 and C5 as stated -/

/-- Counterexample to claim C1 as stated: with `markerPrefix = "---"` every
limit equals `len(markerPrefix) + 20 = 23`, yet on a 100-character
single-line input the result is the hard-cap marker line of 41 characters,
exceeding `maxChars = 23` — the char bound itself fails, not merely the
byte bound. -/
theorem claim1_counterexample :
    ("---".data).length + 20 ≤ 23 ∧
      23 < ((reduceText (List.replicate 100 'a')
        ⟨23, 23, 23, true, 20, 5000, "---".data⟩).text).length := by decide

/-- Counterexample to claim C2 as stated: all limits positive
(`maxLines = 2`), yet the 3-line input `"a\nb\nc"` comes back unchanged
(3 lines) with `truncated = true`, because the desired head of
`clamp(_, 10, 50) ≥ 10` lines swallows the whole text and nothing is
omitted. -/
theorem claim2_counterexample :
    (0 < 1000 ∧ 0 < 1000 ∧ 0 < 2) ∧
      2 < countLines ((reduceText "a\nb\nc".data
        ⟨1000, 1000, 2, true, 20, 5000, "---".data⟩).text) := by decide

/-- Counterexample to claim C5 as stated: `"X\nX\nX\nX\nX"` (9 bytes, 5
lines, over a 4-line limit) compresses to a 45-byte marker-bearing text
and is returned with `compressed = true`, so the output byte length
exceeds the input byte length. -/
theorem claim5_counterexample :
    ((reduceText "X\nX\nX\nX\nX".data
        ⟨10000, 10000, 4, true, 20, 5000, "---".data⟩).compressed = true) ∧
      byteLength "X\nX\nX\nX\nX".data <
        byteLength ((reduceText "X\nX\nX\nX\nX".data
          ⟨10000, 10000, 4, true, 20, 5000, "---".data⟩).text) := by decide

/-! ## Byte-length basics -/

theorem byteLength_cons (c : Char) (s : JSStr) :
    byteLength (c :: s) = utf8CharBytes c + byteLength s := by
  simp [byteLength]

theorem byteLength_append (a b : JSStr) :
    byteLength (a ++ b) = byteLength a + byteLength b := by
  simp [byteLength]

/-! ## Small step lemmas for the slicing helpers -/

theorem takeLines_cons_other (k : Nat) (c : Char) (s : JSStr) (h : ¬c = '\n') :
    takeLines k (c :: s) = c :: takeLines k s := by
  simp [takeLines, h]

theorem takeLines_cons_newline (k : Nat) (s : JSStr) (h : ¬k = 1) :
    takeLines k ('\n' :: s) = '\n' :: takeLines (k - 1) s := by
  simp [takeLines, h]

theorem takeLines_one_newline (s : JSStr) :
    takeLines 1 ('\n' :: s) = [] := by
  simp [takeLines]

/-! ## The head/tail window on a uniform 1000-line text (claim C6) -/

theorem replicate_line_ne_nil (n : Nat) (h : 1 ≤ n) :
    List.replicate n (['a'] : JSStr) ≠ [] := by
  intro e
  have := congrArg List.length e
  simp at this
  omega

theorem rep_succ (n : Nat) (h : 1 ≤ n) :
    joinLines (List.replicate (n + 1) ['a']) =
      'a' :: '\n' :: joinLines (List.replicate n ['a']) := by
  rw [List.replicate_succ, joinLines_cons _ _ (replicate_line_ne_nil n h)]
  rfl

theorem rep_length (n : Nat) (h : 1 ≤ n) :
    (joinLines (List.replicate n ['a'])).length = 2 * n - 1 := by
  induction n with
  | zero => omega
  | succ m ih =>
    by_cases hm : 1 ≤ m
    · rw [rep_succ m hm]
      simp only [List.length_cons, ih hm]
      omega
    · have : m = 0 := by omega
      subst this
      rfl

theorem rep_byteLength (n : Nat) (h : 1 ≤ n) :
    byteLength (joinLines (List.replicate n ['a'])) = 2 * n - 1 := by
  induction n with
  | zero => omega
  | succ m ih =>
    by_cases hm : 1 ≤ m
    · rw [rep_succ m hm, byteLength_cons, byteLength_cons, ih hm]
      have h1 : utf8CharBytes 'a' = 1 := by decide
      have h2 : utf8CharBytes '\n' = 1 := by decide
      rw [h1, h2]
      omega
    · have : m = 0 := by omega
      subst this
      decide

theorem rep_count_newlines (n : Nat) (h : 1 ≤ n) :
    (joinLines (List.replicate n ['a'])).count '\n' = n - 1 := by
  induction n with
  | zero => omega
  | succ m ih =>
    by_cases hm : 1 ≤ m
    · rw [rep_succ m hm]
      simp only [List.count_cons, ih hm]
      have : ('a' == '\n') = false := by decide
      simp [this]
      omega
    · have : m = 0 := by omega
      subst this
      decide

theorem rep_ne_nil (n : Nat) (h : 1 ≤ n) :
    joinLines (List.replicate n ['a']) ≠ [] := by
  by_cases hm : 2 ≤ n
  · obtain ⟨m, rfl⟩ : ∃ m, n = m + 1 := ⟨n - 1, by omega⟩
    rw [rep_succ m (by omega)]
    simp
  · have : n = 1 := by omega
    subst this
    decide

theorem rep_countLines (n : Nat) (h : 1 ≤ n) :
    countLines (joinLines (List.replicate n ['a'])) = n := by
  unfold countLines
  rw [if_neg (rep_ne_nil n h), rep_count_newlines n h]
  omega

theorem rep_succ_snoc (n : Nat) (h : 1 ≤ n) :
    joinLines (List.replicate (n + 1) ['a']) =
      joinLines (List.replicate n ['a']) ++ ['\n', 'a'] := by
  induction n with
  | zero => omega
  | succ m ih =>
    by_cases hm : 1 ≤ m
    · calc joinLines (List.replicate (m + 1 + 1) ['a'])
          = 'a' :: '\n' :: joinLines (List.replicate (m + 1) ['a']) :=
            rep_succ (m + 1) (by omega)
        _ = 'a' :: '\n' :: (joinLines (List.replicate m ['a']) ++ ['\n', 'a']) := by
            rw [ih hm]
        _ = ('a' :: '\n' :: joinLines (List.replicate m ['a'])) ++ ['\n', 'a'] := by
            simp
        _ = joinLines (List.replicate (m + 1) ['a']) ++ ['\n', 'a'] := by
            rw [← rep_succ m hm]
    · have : m = 0 := by omega
      subst this
      decide

theorem rep_reverse (n : Nat) (h : 1 ≤ n) :
    (joinLines (List.replicate n ['a'])).reverse = joinLines (List.replicate n ['a']) := by
  induction n with
  | zero => omega
  | succ m ih =>
    by_cases hm : 1 ≤ m
    · calc (joinLines (List.replicate (m + 1) ['a'])).reverse
          = ('a' :: '\n' :: joinLines (List.replicate m ['a'])).reverse := by
            rw [rep_succ m hm]
        _ = (joinLines (List.replicate m ['a'])).reverse ++ ['\n', 'a'] := by
            simp
        _ = joinLines (List.replicate m ['a']) ++ ['\n', 'a'] := by
            rw [ih hm]
        _ = joinLines (List.replicate (m + 1) ['a']) := (rep_succ_snoc m hm).symm
    · have : m = 0 := by omega
      subst this
      decide

theorem takeLines_rep (k : Nat) : ∀ n, 1 ≤ k → k < n →
    takeLines k (joinLines (List.replicate n ['a'])) = joinLines (List.replicate k ['a']) := by
  induction k with
  | zero => intro n h; omega
  | succ j ih =>
    intro n hk hn
    obtain ⟨m, rfl⟩ : ∃ m, n = m + 1 := ⟨n - 1, by omega⟩
    have hm : 1 ≤ m := by omega
    rw [rep_succ m hm]
    by_cases hj : j = 0
    · subst hj
      rw [takeLines_cons_other _ _ _ (by decide), takeLines_one_newline]
      rfl
    · have hj1 : 1 ≤ j := by omega
      rw [takeLines_cons_other _ _ _ (by decide),
        takeLines_cons_newline _ _ (by omega)]
      simp only [Nat.add_sub_cancel]
      rw [ih m hj1 (by omega), ← rep_succ j hj1]

theorem omissionMarker_901 :
    omissionMarker "---".data 901 = "--- omitted 901 lines ---".data := by decide

/-- Claim C6: on a 1000-line text over a 100-line budget the line-window
truncator keeps `clamp(floor(100*0.15), 10, 50) = 15` head lines and
`min(1000 - 15, 99 - 15) = 84` tail lines, inserting one omission marker
line reporting `1000 - 15 - 84 = 901` omitted lines between them. -/
theorem claim6_head_tail_window :
    truncateText (joinLines (List.replicate 1000 ['a']))
        ⟨1000000, 1000000, 100, true, 20, 5000, "---".data⟩ =
      ⟨true,
       joinLines (List.replicate 15 ['a']) ++ '\n' ::
         ("--- omitted 901 lines ---".data ++ '\n' :: joinLines (List.replicate 84 ['a'])),
       ⟨1999, 1999, 1000, some 15, some 84, some 901⟩⟩ := by
  have hlen := rep_length 1000 (by omega)
  have hbytes := rep_byteLength 1000 (by omega)
  have hlines := rep_countLines 1000 (by omega)
  have hkc : computeKeepLineCounts 1000 100 = (15, 84) := by decide
  have homit : omittedCount (joinLines (List.replicate 1000 ['a'])) 100 = 901 := by
    unfold omittedCount
    rw [hlines, hkc]
    rfl
  have hhead : sliceHeadLines (joinLines (List.replicate 1000 ['a'])) 15 1000 =
      joinLines (List.replicate 15 ['a']) := by
    unfold sliceHeadLines
    rw [if_neg (by omega), if_neg (by omega)]
    exact takeLines_rep 15 1000 (by omega) (by omega)
  have htail : sliceTailLines (joinLines (List.replicate 1000 ['a'])) 84 =
      joinLines (List.replicate 84 ['a']) := by
    unfold sliceTailLines
    rw [if_neg (by omega), rep_reverse 1000 (by omega),
      takeLines_rep 84 1000 (by omega) (by omega), rep_reverse 84 (by omega)]
  have hcand : lineCandidate (joinLines (List.replicate 1000 ['a']))
      ⟨1000000, 1000000, 100, true, 20, 5000, "---".data⟩ =
      joinLines (List.replicate 15 ['a']) ++ '\n' ::
        ("--- omitted 901 lines ---".data ++ '\n' :: joinLines (List.replicate 84 ['a'])) := by
    unfold lineCandidate
    simp only [hlines, homit, hkc]
    rw [if_pos (by omega), hhead, htail, omissionMarker_901]
  have hcandlen : (joinLines (List.replicate 15 ['a']) ++ '\n' ::
      ("--- omitted 901 lines ---".data ++ '\n' ::
        joinLines (List.replicate 84 ['a']))).length = 223 := by
    simp only [List.length_append, List.length_cons, rep_length 15 (by omega),
      rep_length 84 (by omega)]
    decide
  have hcandbytes : byteLength (joinLines (List.replicate 15 ['a']) ++ '\n' ::
      ("--- omitted 901 lines ---".data ++ '\n' ::
        joinLines (List.replicate 84 ['a']))) = 223 := by
    simp only [byteLength_append, byteLength_cons]
    rw [rep_byteLength 15 (by omega), rep_byteLength 84 (by omega)]
    decide
  have hcap : hardCapped (joinLines (List.replicate 15 ['a']) ++ '\n' ::
      ("--- omitted 901 lines ---".data ++ '\n' :: joinLines (List.replicate 84 ['a'])))
      ⟨1000000, 1000000, 100, true, 20, 5000, "---".data⟩ =
      joinLines (List.replicate 15 ['a']) ++ '\n' ::
        ("--- omitted 901 lines ---".data ++ '\n' :: joinLines (List.replicate 84 ['a'])) := by
    unfold hardCapped
    rw [hcandlen, hcandbytes, if_neg (by norm_num)]
  unfold truncateText
  simp only [hlen, hbytes, hlines, hkc]
  rw [if_neg (by omega), hcand, hcap, homit]

/-! ## ASCII and newline-freeness infrastructure -/

/-- Every scalar of the string is ASCII (strict 7-bit), so that its UTF-8
byte length equals its character length. -/
def AllAscii (s : JSStr) : Prop := ∀ c ∈ s, c.toNat < 128

instance (s : JSStr) : Decidable (AllAscii s) := by
  unfold AllAscii; exact List.decidableBAll _ s

theorem byteLength_eq_length (s : JSStr) (h : AllAscii s) : byteLength s = s.length := by
  induction s with
  | nil => rfl
  | cons c rest ih =>
    rw [byteLength_cons]
    have hc : c.toNat < 128 := h c (List.mem_cons_self _ _)
    rw [show utf8CharBytes c = 1 from by unfold utf8CharBytes; rw [if_pos hc]]
    rw [ih fun x hx => h x (List.mem_cons_of_mem _ hx), List.length_cons]
    omega

theorem byteLength_take_le (s : JSStr) (n : Nat) : byteLength (s.take n) ≤ byteLength s := by
  conv_rhs => rw [← List.take_append_drop n s]
  rw [byteLength_append]
  omega

theorem byteLength_reverse (s : JSStr) : byteLength s.reverse = byteLength s := by
  unfold byteLength
  rw [List.map_reverse, List.sum_reverse]

theorem allAscii_append {a b : JSStr} (ha : AllAscii a) (hb : AllAscii b) :
    AllAscii (a ++ b) := by
  intro c hc
  rcases List.mem_append.1 hc with h | h
  · exact ha c h
  · exact hb c h

theorem allAscii_of_subset {s t : JSStr} (hsub : ∀ c ∈ t, c ∈ s) (h : AllAscii s) :
    AllAscii t := fun c hc => h c (hsub c hc)

theorem mem_takeLines {c : Char} (k : Nat) (s : JSStr) (h : c ∈ takeLines k s) : c ∈ s := by
  induction s generalizing k with
  | nil => simp [takeLines] at h
  | cons a rest ih =>
    unfold takeLines at h
    by_cases ha : a = '\n'
    · rw [if_pos ha] at h
      split at h
      · simp at h
      · rcases List.mem_cons.1 h with h | h
        · simp [h]
        · exact List.mem_cons_of_mem _ (ih _ h)
    · rw [if_neg ha] at h
      rcases List.mem_cons.1 h with h | h
      · simp [h]
      · exact List.mem_cons_of_mem _ (ih _ h)

/-- Decimal digits are printable ASCII and never a newline. -/
theorem digit_char_facts (d : Nat) (h : d < 10) :
    (Char.ofNat (48 + d)).toNat < 128 ∧ ¬Char.ofNat (48 + d) = '\n' := by
  interval_cases d <;> exact ⟨by decide, by decide⟩

theorem natCharsAux_ascii (fuel : Nat) : ∀ n, AllAscii (natCharsAux n fuel) := by
  induction fuel with
  | zero => intro n c hc; simp [natCharsAux] at hc
  | succ fuel ih =>
    intro n c hc
    unfold natCharsAux at hc
    split at hc
    · next h =>
      rw [List.mem_singleton] at hc
      subst hc
      exact (digit_char_facts n h).1
    · rcases List.mem_append.1 hc with h | h
      · exact ih _ c h
      · rw [List.mem_singleton] at h
        subst h
        exact (digit_char_facts (n % 10) (Nat.mod_lt _ (by omega))).1

theorem natChars_ascii (n : Nat) : AllAscii (natChars n) := natCharsAux_ascii (n + 1) n

theorem natCharsAux_no_newline (fuel : Nat) : ∀ n, '\n' ∉ natCharsAux n fuel := by
  induction fuel with
  | zero => intro n h; simp [natCharsAux] at h
  | succ fuel ih =>
    intro n h
    unfold natCharsAux at h
    split at h
    · next hn =>
      rw [List.mem_singleton] at h
      exact (digit_char_facts n hn).2 h.symm
    · rcases List.mem_append.1 h with h | h
      · exact ih _ h
      · rw [List.mem_singleton] at h
        exact (digit_char_facts (n % 10) (Nat.mod_lt _ (by omega))).2 h.symm

theorem natChars_no_newline (n : Nat) : '\n' ∉ natChars n := natCharsAux_no_newline (n + 1) n

theorem natCharsAux_length (fuel : Nat) : ∀ n, 1 ≤ n → (natCharsAux n fuel).length ≤ n := by
  induction fuel with
  | zero => intro n h; simp [natCharsAux]
  | succ fuel ih =>
    intro n h
    unfold natCharsAux
    split
    · simpa using h
    · next hn =>
      rw [List.length_append, List.length_singleton]
      have h10 : 10 ≤ n := by omega
      have := ih (n / 10) (by omega)
      omega

theorem natChars_length (n : Nat) (h : 1 ≤ n) : (natChars n).length ≤ n :=
  natCharsAux_length (n + 1) n h

theorem natChars_byteLength (n : Nat) (h : 1 ≤ n) : byteLength (natChars n) ≤ n := by
  rw [byteLength_eq_length _ (natChars_ascii n)]
  exact natChars_length n h

/-! ## Marker lines: ASCII, newline-free, byte bounds -/

theorem dupMarker_ascii (pfx : JSStr) (n : Nat) (h : AllAscii pfx) :
    AllAscii (dupMarker pfx n) :=
  allAscii_append (allAscii_append (allAscii_append (allAscii_append h
    (by decide)) (natChars_ascii n)) (by decide)) h

theorem blockMarker_ascii (pfx : JSStr) (size more : Nat) (h : AllAscii pfx) :
    AllAscii (blockMarker pfx size more) :=
  allAscii_append (allAscii_append (allAscii_append (allAscii_append (allAscii_append
    (allAscii_append h (by decide)) (natChars_ascii size)) (by decide))
    (natChars_ascii more)) (by decide)) h

theorem omissionMarker_ascii (pfx : JSStr) (n : Nat) (h : AllAscii pfx) :
    AllAscii (omissionMarker pfx n) :=
  allAscii_append (allAscii_append (allAscii_append (allAscii_append h
    (by decide)) (natChars_ascii n)) (by decide)) h

theorem hardMarker_ascii (limits : Limits) (h : AllAscii limits.marker) :
    AllAscii (hardMarker limits) :=
  allAscii_append (allAscii_append (allAscii_append (allAscii_append (allAscii_append
    (allAscii_append h (by decide)) (natChars_ascii limits.maxChars)) (by decide))
    (natChars_ascii limits.maxBytes)) (by decide)) h

theorem dupMarker_no_newline (pfx : JSStr) (n : Nat) (h : '\n' ∉ pfx) :
    '\n' ∉ dupMarker pfx n := by
  unfold dupMarker
  simp only [List.mem_append]
  push_neg
  exact ⟨⟨⟨⟨h, by decide⟩, natChars_no_newline n⟩, by decide⟩, h⟩

theorem blockMarker_no_newline (pfx : JSStr) (size more : Nat) (h : '\n' ∉ pfx) :
    '\n' ∉ blockMarker pfx size more := by
  unfold blockMarker
  simp only [List.mem_append]
  push_neg
  exact ⟨⟨⟨⟨⟨⟨h, by decide⟩, natChars_no_newline size⟩, by decide⟩,
    natChars_no_newline more⟩, by decide⟩, h⟩

theorem omissionMarker_no_newline (pfx : JSStr) (n : Nat) (h : '\n' ∉ pfx) :
    '\n' ∉ omissionMarker pfx n := by
  unfold omissionMarker
  simp only [List.mem_append]
  push_neg
  exact ⟨⟨⟨⟨h, by decide⟩, natChars_no_newline n⟩, by decide⟩, h⟩

theorem hardMarker_no_newline (limits : Limits) (h : '\n' ∉ limits.marker) :
    '\n' ∉ hardMarker limits := by
  unfold hardMarker
  simp only [List.mem_append]
  push_neg
  exact ⟨⟨⟨⟨⟨⟨h, by decide⟩, natChars_no_newline limits.maxChars⟩, by decide⟩,
    natChars_no_newline limits.maxBytes⟩, by decide⟩, h⟩

theorem dupMarker_byteLength (pfx : JSStr) (n : Nat) (h : 1 ≤ n) :
    byteLength (dupMarker pfx n) ≤ 2 * byteLength pfx + 36 + n := by
  unfold dupMarker
  repeat rw [byteLength_append]
  have h1 : byteLength " repeated previous line ".data = 24 := by decide
  have h2 : byteLength " more times ".data = 12 := by decide
  have h3 := natChars_byteLength n h
  omega

theorem blockMarker_byteLength (pfx : JSStr) (size more : Nat)
    (hs : 1 ≤ size) (hm : 1 ≤ more) :
    byteLength (blockMarker pfx size more) ≤ 2 * byteLength pfx + 38 + size + more := by
  unfold blockMarker
  repeat rw [byteLength_append]
  have h1 : byteLength " repeated previous ".data = 19 := by decide
  have h2 : byteLength " lines ".data = 7 := by decide
  have h3 : byteLength " more times ".data = 12 := by decide
  have h4 := natChars_byteLength size hs
  have h5 := natChars_byteLength more hm
  omega

theorem omissionMarker_byteLength (pfx : JSStr) (n : Nat) (h : 1 ≤ n) :
    byteLength (omissionMarker pfx n) ≤ 2 * byteLength pfx + 16 + n := by
  unfold omissionMarker
  repeat rw [byteLength_append]
  have h1 : byteLength " omitted ".data = 9 := by decide
  have h2 : byteLength " lines ".data = 7 := by decide
  have h3 := natChars_byteLength n h
  omega

/-! ## The character bound enforced by the hard cap -/

theorem hardCapped_length_le (c : JSStr) (limits : Limits)
    (h : (hardMarker limits).length + 2 ≤ limits.maxChars) :
    (hardCapped c limits).length ≤ limits.maxChars := by
  unfold hardCapped
  split
  · rw [List.length_append, List.length_cons, List.length_take]
    have := Nat.min_le_left (limits.maxChars - (hardMarker limits).length - 2) c.length
    omega
  · next hc =>
    push_neg at hc
    exact hc.1

theorem truncateText_length_le (text : JSStr) (limits : Limits)
    (h : (hardMarker limits).length + 2 ≤ limits.maxChars) :
    ((truncateText text limits).text).length ≤ limits.maxChars := by
  simp only [truncateText]
  split
  · next hin => simpa using hin.1
  · simpa using hardCapped_length_le (lineCandidate text limits) limits h

theorem reduceText_length_le (text : JSStr) (limits : Limits)
    (h : (hardMarker limits).length + 2 ≤ limits.maxChars) :
    ((reduceText text limits).text).length ≤ limits.maxChars := by
  unfold reduceText
  by_cases h1 : isWithinLimits (getSizeMeta text) limits
  · rw [if_pos h1]
    simpa [getSizeMeta] using h1.1
  · rw [if_neg h1]
    by_cases h2 : isWithinLimits (getSizeMeta (compressionStep text limits).1) limits
    · rw [if_pos h2]
      simpa [getSizeMeta] using h2.1
    · rw [if_neg h2]
      simpa using truncateText_length_le (compressionStep text limits).1 limits h

/-! ## ASCII preservation through the pipeline -/

theorem newline_ascii : ('\n').toNat < 128 := by decide

theorem joinLines_ascii (ls : List JSStr) (h : ∀ l ∈ ls, AllAscii l) :
    AllAscii (joinLines ls) := by
  induction ls with
  | nil => intro c hc; simp [joinLines] at hc
  | cons l rest ih =>
    cases rest with
    | nil => exact h l (List.mem_cons_self _ _)
    | cons l2 rest2 =>
      rw [joinLines_cons _ _ (by simp)]
      refine allAscii_append (h l (List.mem_cons_self _ _)) ?_
      intro c hc
      rcases List.mem_cons.1 hc with hcn | hcn
      · subst hcn; exact newline_ascii
      · exact ih (fun x hx => h x (List.mem_cons_of_mem _ hx)) c hcn

theorem dupFlush_ascii (pfx line : JSStr) (rc : Nat)
    (hp : AllAscii pfx) (hl : AllAscii line) :
    ∀ l ∈ dupFlush pfx line rc, AllAscii l := by
  intro l hmem
  unfold dupFlush at hmem
  split at hmem
  · rcases List.mem_cons.1 hmem with h | h
    · subst h; exact hl
    · rw [List.mem_singleton] at h
      subst h
      exact dupMarker_ascii pfx _ hp
  · rw [List.mem_singleton] at hmem
    subst hmem
    exact hl

theorem dupLoop_ascii (pfx : JSStr) (rest : List JSStr) :
    ∀ (prev : JSStr) (rc : Nat), AllAscii pfx → AllAscii prev →
      (∀ l ∈ rest, AllAscii l) →
      ∀ l ∈ (dupLoop pfx prev rc rest).1, AllAscii l := by
  induction rest with
  | nil =>
    intro prev rc hp hprev _ l hmem
    exact dupFlush_ascii pfx prev rc hp hprev l hmem
  | cons line rest ih =>
    intro prev rc hp hprev hrest l hmem
    unfold dupLoop at hmem
    split at hmem
    · exact ih prev (rc + 1) hp hprev (fun x hx => hrest x (List.mem_cons_of_mem _ hx)) l hmem
    · simp only at hmem
      rcases List.mem_append.1 hmem with h | h
      · exact dupFlush_ascii pfx prev rc hp hprev l h
      · exact ih line 1 hp (hrest line (List.mem_cons_self _ _))
          (fun x hx => hrest x (List.mem_cons_of_mem _ hx)) l h

theorem compressDup_ascii (text pfx : JSStr) (ht : AllAscii text) (hp : AllAscii pfx) :
    AllAscii (compressConsecutiveDuplicateLines text pfx).text := by
  unfold compressConsecutiveDuplicateLines
  split
  · exact ht
  · cases hsp : splitLines text with
    | nil => exact absurd hsp (splitLines_ne_nil text)
    | cons first rest =>
      simp only
      apply joinLines_ascii
      apply dupLoop_ascii pfx rest first 1 hp
      · exact allAscii_of_subset (splitLines_chars text first (hsp ▸ List.mem_cons_self _ _)) ht
      · intro l hl
        exact allAscii_of_subset
          (splitLines_chars text l (hsp ▸ List.mem_cons_of_mem _ hl)) ht

theorem blockLoop_ascii (lines : List JSStr) (pfx : JSStr) (mbs : Nat)
    (hp : AllAscii pfx) (hl : ∀ l ∈ lines, AllAscii l) :
    ∀ (fuel i : Nat), ∀ l ∈ (blockLoop lines pfx mbs i fuel).1, AllAscii l := by
  intro fuel
  induction fuel with
  | zero => intro i l hmem; simp [blockLoop] at hmem
  | succ fuel ih =>
    intro i l hmem
    unfold blockLoop at hmem
    split at hmem
    · simp only at hmem
      split at hmem
      · simp only at hmem
        rcases List.mem_append.1 hmem with h | h
        · exact hl l (List.mem_of_mem_drop (List.mem_of_mem_take h))
        · rcases List.mem_cons.1 h with h | h
          · subst h; exact blockMarker_ascii pfx _ _ hp
          · exact ih _ l h
      · simp only at hmem
        rcases List.mem_cons.1 hmem with h | h
        · subst h
          next hi _ =>
            rw [List.getD_eq_getElem lines [] hi]
            exact hl _ (List.getElem_mem hi)
        · exact ih _ l h
    · simp at hmem

theorem compressBlocks_ascii (text pfx : JSStr) (mbs msl : Nat)
    (ht : AllAscii text) (hp : AllAscii pfx) :
    AllAscii (compressConsecutiveRepeatedBlocks text pfx mbs msl).text := by
  unfold compressConsecutiveRepeatedBlocks
  simp only
  split
  · exact ht
  · simp only
    apply joinLines_ascii
    apply blockLoop_ascii (splitLines text) pfx mbs hp
    intro l hmem
    exact allAscii_of_subset (splitLines_chars text l hmem) ht

theorem compressionStep_ascii (text : JSStr) (limits : Limits)
    (ht : AllAscii text) (hp : AllAscii limits.marker) :
    AllAscii (compressionStep text limits).1 := by
  unfold compressionStep
  split
  · simp only
    exact compressBlocks_ascii _ _ _ _ (compressDup_ascii text limits.marker ht hp) hp
  · exact ht

theorem sliceHeadLines_ascii (text : JSStr) (k tot : Nat) (ht : AllAscii text) :
    AllAscii (sliceHeadLines text k tot) := by
  unfold sliceHeadLines
  split
  · intro c hc; simp at hc
  · split
    · exact ht
    · exact allAscii_of_subset (fun c hc => mem_takeLines k text hc) ht

theorem sliceTailLines_ascii (text : JSStr) (k : Nat) (ht : AllAscii text) :
    AllAscii (sliceTailLines text k) := by
  unfold sliceTailLines
  split
  · intro c hc; simp at hc
  · intro c hc
    rw [List.mem_reverse] at hc
    have := mem_takeLines k text.reverse hc
    rw [List.mem_reverse] at this
    exact ht c this

theorem lineCandidate_ascii (text : JSStr) (limits : Limits)
    (ht : AllAscii text) (hp : AllAscii limits.marker) :
    AllAscii (lineCandidate text limits) := by
  unfold lineCandidate
  simp only
  split
  · refine allAscii_append (sliceHeadLines_ascii _ _ _ ht) ?_
    intro c hc
    rcases List.mem_cons.1 hc with h | h
    · subst h; exact newline_ascii
    · rcases List.mem_append.1 h with h | h
      · exact omissionMarker_ascii _ _ hp c h
      · rcases List.mem_cons.1 h with h | h
        · subst h; exact newline_ascii
        · exact sliceTailLines_ascii _ _ ht c h
  · exact ht

theorem hardCapped_ascii (c : JSStr) (limits : Limits)
    (hc : AllAscii c) (hp : AllAscii limits.marker) :
    AllAscii (hardCapped c limits) := by
  unfold hardCapped
  split
  · refine allAscii_append (allAscii_of_subset (fun x hx => List.mem_of_mem_take hx) hc) ?_
    intro x hx
    rcases List.mem_cons.1 hx with h | h
    · subst h; exact newline_ascii
    · exact hardMarker_ascii limits hp x h
  · exact hc

theorem truncateText_ascii (text : JSStr) (limits : Limits)
    (ht : AllAscii text) (hp : AllAscii limits.marker) :
    AllAscii ((truncateText text limits).text) := by
  simp only [truncateText]
  split
  · exact ht
  · exact hardCapped_ascii _ _ (lineCandidate_ascii text limits ht hp) hp

theorem reduceText_ascii (text : JSStr) (limits : Limits)
    (ht : AllAscii text) (hp : AllAscii limits.marker) :
    AllAscii ((reduceText text limits).text) := by
  unfold reduceText
  by_cases h1 : isWithinLimits (getSizeMeta text) limits
  · rw [if_pos h1]; exact ht
  · rw [if_neg h1]
    by_cases h2 : isWithinLimits (getSizeMeta (compressionStep text limits).1) limits
    · rw [if_pos h2]
      exact compressionStep_ascii text limits ht hp
    · rw [if_neg h2]
      exact truncateText_ascii _ _ (compressionStep_ascii text limits ht hp) hp

/-- Claim C1 (amended): whenever `maxChars` can accommodate the hard-cap
marker line plus its newline (`maxChars ≥ len(hardMarker) + 2`), the result
of `reduce` has character length at most `maxChars`; and on ASCII input with
an ASCII `markerPrefix` and `maxChars ≤ maxBytes`, its UTF-8 byte length is
at most `maxBytes` (on multi-byte text the char-count hard-cap slice may
overshoot the byte budget, the looseness documented in the spec). -/
theorem claim1_amended_budget (text : JSStr) (limits : Limits)
    (hmc : (hardMarker limits).length + 2 ≤ limits.maxChars) :
    ((reduceText text limits).text).length ≤ limits.maxChars ∧
      (AllAscii text → AllAscii limits.marker → limits.maxChars ≤ limits.maxBytes →
        byteLength ((reduceText text limits).text) ≤ limits.maxBytes) := by
  refine ⟨reduceText_length_le text limits hmc, fun ha hp hcb => ?_⟩
  rw [byteLength_eq_length _ (reduceText_ascii text limits ha hp)]
  exact le_trans (reduceText_length_le text limits hmc) hcb

theorem claim1_amended_budget_witness :
    ((hardMarker ⟨100, 120, 5, true, 20, 5000, "---".data⟩).length + 2 ≤ 100) ∧
      ((reduceText "a\nb\nc\nd\na\nb\nc\nd".data
          ⟨100, 120, 5, true, 20, 5000, "---".data⟩).text).length ≤ 100 ∧
      (AllAscii "a\nb\nc\nd\na\nb\nc\nd".data → AllAscii "---".data → 100 ≤ 120 →
        byteLength ((reduceText "a\nb\nc\nd\na\nb\nc\nd".data
          ⟨100, 120, 5, true, 20, 5000, "---".data⟩).text) ≤ 120) :=
  ⟨by decide, claim1_amended_budget "a\nb\nc\nd\na\nb\nc\nd".data
    ⟨100, 120, 5, true, 20, 5000, "---".data⟩ (by decide)⟩

/-! ## Line-count analysis of the truncation window (claim C2) -/

theorem countLines_pos (s : JSStr) : 1 ≤ countLines s := by
  unfold countLines
  split <;> omega

theorem clampInt_head_le (m : Nat) (h : 12 ≤ m) :
    clampInt (m * 15 / 100) 10 50 ≤ m - 2 := by
  unfold clampInt
  omega

theorem clampInt_head_ge (m : Nat) : 10 ≤ clampInt (m * 15 / 100) 10 50 := by
  unfold clampInt
  omega

theorem computeKeepLineCounts_facts (tot m : Nat) (hm : 12 ≤ m) (htot : 1 ≤ tot) :
    1 ≤ (computeKeepLineCounts tot m).1 ∧
      (computeKeepLineCounts tot m).1 ≤ tot ∧
      (computeKeepLineCounts tot m).1 + (computeKeepLineCounts tot m).2 ≤ m - 1 ∧
      (computeKeepLineCounts tot m).2 ≤ tot - (computeKeepLineCounts tot m).1 ∧
      ((computeKeepLineCounts tot m).1 < tot → 1 ≤ (computeKeepLineCounts tot m).2) := by
  have h1 := clampInt_head_le m hm
  have h2 := clampInt_head_ge m
  simp only [computeKeepLineCounts]
  rw [if_neg (by omega)]
  simp only
  omega

theorem count_takeLines (s : JSStr) : ∀ k, 1 ≤ k →
    (takeLines k s).count '\n' ≤ k - 1 := by
  induction s with
  | nil => intro k hk; simp [takeLines]
  | cons c rest ih =>
    intro k hk
    unfold takeLines
    by_cases hc : c = '\n'
    · rw [if_pos hc]
      by_cases hk1 : k = 1
      · rw [if_pos hk1]; simp
      · rw [if_neg hk1]
        subst hc
        have := ih (k - 1) (by omega)
        simp only [List.count_cons, beq_self_eq_true, if_true]
        omega
    · rw [if_neg hc]
      have hne : (c == '\n') = false := by simpa using hc
      have := ih k hk
      simp only [List.count_cons, hne, Bool.false_eq_true, if_false]
      omega

theorem count_sliceHeadLines (t : JSStr) (k tot : Nat)
    (hk : 1 ≤ k) (htot : tot = countLines t) :
    (sliceHeadLines t k tot).count '\n' ≤ k - 1 := by
  unfold sliceHeadLines
  rw [if_neg (by omega)]
  split
  · next hle =>
    subst htot
    have : t.count '\n' ≤ countLines t - 1 := by
      unfold countLines
      split <;> simp_all
    omega
  · exact count_takeLines t k hk

theorem count_sliceTailLines (t : JSStr) (k : Nat) (hk : 1 ≤ k) :
    (sliceTailLines t k).count '\n' ≤ k - 1 := by
  unfold sliceTailLines
  rw [if_neg (by omega)]
  rw [List.count_reverse]
  exact count_takeLines t.reverse k hk

theorem lineCandidate_newlines (t : JSStr) (limits : Limits)
    (hml : 12 ≤ limits.maxLines) (hnl : '\n' ∉ limits.marker) :
    (lineCandidate t limits).count '\n' ≤ limits.maxLines - 1 := by
  have hfacts := computeKeepLineCounts_facts (countLines t) limits.maxLines hml
    (countLines_pos t)
  obtain ⟨hkh1, hkhtot, hsum, hkt, hkt1⟩ := hfacts
  unfold lineCandidate
  simp only
  split
  · next hom =>
    unfold omittedCount at hom
    simp only at hom
    simp only [List.count_append, List.count_cons, beq_self_eq_true, if_true]
    have hmark : (omissionMarker limits.marker
        (omittedCount t limits.maxLines)).count '\n' = 0 :=
      List.count_eq_zero_of_not_mem (omissionMarker_no_newline _ _ hnl)
    rw [hmark]
    have hhead := count_sliceHeadLines t (computeKeepLineCounts (countLines t)
      limits.maxLines).1 (countLines t) hkh1 rfl
    have htail := count_sliceTailLines t (computeKeepLineCounts (countLines t)
      limits.maxLines).2 (hkt1 (by omega))
    omega
  · next hom =>
    unfold omittedCount at hom
    simp only at hom
    have : t.count '\n' = countLines t - 1 := by
      unfold countLines
      split <;> simp_all
    omega

theorem countLines_le_count (s : JSStr) : countLines s ≤ 1 + s.count '\n' := by
  unfold countLines
  split <;> simp

theorem hardCapped_lines_le (c : JSStr) (limits : Limits)
    (hnl : '\n' ∉ limits.marker) (hml : 12 ≤ limits.maxLines)
    (hc : c.count '\n' ≤ limits.maxLines - 1) :
    countLines (hardCapped c limits) ≤ limits.maxLines + 1 := by
  unfold hardCapped
  split
  · have h1 : (c.take (limits.maxChars - (hardMarker limits).length - 2)).count '\n' ≤
        c.count '\n' := (List.take_sublist _ _).count_le _
    have h2 : (hardMarker limits).count '\n' = 0 :=
      List.count_eq_zero_of_not_mem (hardMarker_no_newline _ hnl)
    have h3 := countLines_le_count
      (c.take (limits.maxChars - (hardMarker limits).length - 2) ++
        '\n' :: hardMarker limits)
    simp only [List.count_append, List.count_cons, beq_self_eq_true, if_true, h2] at h3
    omega
  · have := countLines_le_count c
    omega

theorem truncateText_lines_le (t : JSStr) (limits : Limits)
    (hml : 12 ≤ limits.maxLines) (hnl : '\n' ∉ limits.marker) :
    countLines ((truncateText t limits).text) ≤ limits.maxLines + 1 := by
  simp only [truncateText]
  split
  · next hin =>
    have := hin.2.2
    simpa using le_trans this (by omega)
  · simpa using
      hardCapped_lines_le _ limits hnl hml (lineCandidate_newlines t limits hml hnl)

/-- Claim C2 (amended): for limits with `maxLines ≥ 12` and a newline-free
`markerPrefix`, the text returned by `reduce` has at most `maxLines + 1`
lines; the budget can be exceeded by exactly one line only when the hard
char/byte cap re-slices mid-line.  (As stated the claim is false: for
`maxLines < 12` the fixed minimum head of 10 lines can swallow the whole
text, which is then returned unchanged, and the returned line count also
need not meet `maxLines` exactly when the hard cap appends its marker.) -/
theorem claim2_amended_line_budget (text : JSStr) (limits : Limits)
    (hml : 12 ≤ limits.maxLines) (hnl : '\n' ∉ limits.marker) :
    countLines ((reduceText text limits).text) ≤ limits.maxLines + 1 := by
  unfold reduceText
  by_cases h1 : isWithinLimits (getSizeMeta text) limits
  · rw [if_pos h1]
    have := h1.2.2
    simp only [getSizeMeta] at this
    simpa using le_trans this (by omega)
  · rw [if_neg h1]
    by_cases h2 : isWithinLimits (getSizeMeta (compressionStep text limits).1) limits
    · rw [if_pos h2]
      have := h2.2.2
      simp only [getSizeMeta] at this
      simpa using le_trans this (by omega)
    · rw [if_neg h2]
      simpa using truncateText_lines_le (compressionStep text limits).1 limits hml hnl

theorem claim2_amended_line_budget_witness :
    (12 ≤ 12 ∧ '\n' ∉ ("---".data : JSStr)) ∧
      countLines ((reduceText "0\n1\n2\n3\n4\n5\n6\n7\n8\n9\nA\nB\nC\nD".data
        ⟨50, 50, 12, true, 20, 5000, "---".data⟩).text) ≤ 12 + 1 :=
  ⟨⟨by omega, by decide⟩,
    claim2_amended_line_budget "0\n1\n2\n3\n4\n5\n6\n7\n8\n9\nA\nB\nC\nD".data
      ⟨50, 50, 12, true, 20, 5000, "---".data⟩ (by decide) (by decide)⟩

/-! ## Per-line byte accounting (claim C5) -/

theorem countLines_eq_count (s : JSStr) : countLines s = 1 + s.count '\n' := by
  unfold countLines
  split
  · next h => subst h; simp
  · rfl

/-- Byte cost of a line list inside a join: each line's bytes plus one
separator byte. -/
def lineBytes (ls : List JSStr) : Nat := (ls.map (fun l => byteLength l + 1)).sum

theorem lineBytes_nil : lineBytes [] = 0 := rfl

theorem lineBytes_cons (l : JSStr) (ls : List JSStr) :
    lineBytes (l :: ls) = byteLength l + 1 + lineBytes ls := by
  simp [lineBytes]

theorem lineBytes_append (a b : List JSStr) :
    lineBytes (a ++ b) = lineBytes a + lineBytes b := by
  simp [lineBytes]

theorem length_le_lineBytes (ls : List JSStr) : ls.length ≤ lineBytes ls := by
  induction ls with
  | nil => simp [lineBytes]
  | cons l rest ih =>
    rw [lineBytes_cons, List.length_cons]
    omega

theorem joinLines_lineBytes (ls : List JSStr) (h : ls ≠ []) :
    byteLength (joinLines ls) + 1 = lineBytes ls := by
  induction ls with
  | nil => exact absurd rfl h
  | cons l rest ih =>
    cases rest with
    | nil => simp [joinLines, lineBytes]
    | cons l2 rest2 =>
      rw [joinLines_cons _ _ (by simp), byteLength_append, byteLength_cons,
        lineBytes_cons, ← ih (by simp)]
      have : utf8CharBytes '\n' = 1 := by decide
      omega

theorem splitLines_lineBytes (s : JSStr) :
    lineBytes (splitLines s) = byteLength s + 1 := by
  rw [← joinLines_lineBytes (splitLines s) (splitLines_ne_nil s), joinLines_splitLines]

theorem lineBytes_take_drop (ls : List JSStr) (n : Nat) :
    lineBytes ls = lineBytes (ls.take n) + lineBytes (ls.drop n) := by
  conv_lhs => rw [← List.take_append_drop n ls]
  rw [lineBytes_append]

theorem lineBytes_take_le (ls : List JSStr) (n : Nat) :
    lineBytes (ls.take n) ≤ lineBytes ls := by
  rw [lineBytes_take_drop ls n]
  omega

theorem lineBytes_take_mono (ls : List JSStr) {m n : Nat} (h : m ≤ n) :
    lineBytes (ls.take m) ≤ lineBytes (ls.take n) := by
  have heq : (ls.take n).take m = ls.take m := by
    rw [List.take_take, Nat.min_eq_left h]
  rw [← heq]
  exact lineBytes_take_le _ _

/-! ## Byte accounting for the duplicate-line compressor -/

theorem dupFlush_lineBytes (pfx prev : JSStr) (rc : Nat) (h : 1 ≤ rc) :
    lineBytes (dupFlush pfx prev rc) ≤
      rc * (byteLength prev + 1) + rc * (2 * byteLength pfx + 41) := by
  unfold dupFlush
  split
  · next h2 =>
    rw [lineBytes_cons, lineBytes_cons, lineBytes_nil]
    have hm := dupMarker_byteLength pfx (rc - 1) (by omega)
    have hb2 : 2 * (byteLength prev + 1) ≤ rc * (byteLength prev + 1) :=
      Nat.mul_le_mul_right _ (by omega)
    have hb3 : 2 * (2 * byteLength pfx + 41) ≤ rc * (2 * byteLength pfx + 41) :=
      Nat.mul_le_mul_right _ (by omega)
    have hb5 : rc * 41 ≤ rc * (2 * byteLength pfx + 41) :=
      Nat.mul_le_mul_left rc (by omega)
    omega
  · rw [lineBytes_cons, lineBytes_nil]
    have hb2 : 1 * (byteLength prev + 1) ≤ rc * (byteLength prev + 1) :=
      Nat.mul_le_mul_right _ h
    omega

theorem dupLoop_lineBytes (pfx : JSStr) (rest : List JSStr) :
    ∀ (prev : JSStr) (rc : Nat), 1 ≤ rc →
      lineBytes (dupLoop pfx prev rc rest).1 ≤
        rc * (byteLength prev + 1) + lineBytes rest +
          (rc + rest.length) * (2 * byteLength pfx + 41) := by
  induction rest with
  | nil =>
    intro prev rc h
    have := dupFlush_lineBytes pfx prev rc h
    simp only [dupLoop, List.length_nil, lineBytes_nil, Nat.add_zero]
    omega
  | cons line rest ih =>
    intro prev rc h
    unfold dupLoop
    split
    · next heq =>
      have hrec := ih prev (rc + 1) (by omega)
      rw [lineBytes_cons, List.length_cons, heq]
      have hexp : (rc + 1) * (byteLength prev + 1) =
          rc * (byteLength prev + 1) + (byteLength prev + 1) := by ring
      have hexp2 : (rc + 1 + rest.length) * (2 * byteLength pfx + 41) =
          (rc + (rest.length + 1)) * (2 * byteLength pfx + 41) := by ring
      omega
    · simp only
      rw [lineBytes_append, lineBytes_cons, List.length_cons]
      have h1 := dupFlush_lineBytes pfx prev rc h
      have h2 := ih line 1 (by omega)
      have h3 : (1 + rest.length) * (2 * byteLength pfx + 41) +
          rc * (2 * byteLength pfx + 41) =
          (rc + (rest.length + 1)) * (2 * byteLength pfx + 41) := by ring
      have h4 : 1 * (byteLength line + 1) = byteLength line + 1 := by ring
      omega

theorem compressDup_bytes (text pfx : JSStr) :
    byteLength (compressConsecutiveDuplicateLines text pfx).text ≤
      byteLength text + countLines text * (2 * byteLength pfx + 41) := by
  unfold compressConsecutiveDuplicateLines
  split
  · simp
  · cases hsp : splitLines text with
    | nil => exact absurd hsp (splitLines_ne_nil text)
    | cons first rest =>
      simp only
      by_cases hout : (dupLoop pfx first 1 rest).1 = []
      · rw [hout]
        simp [joinLines, byteLength]
      · have hjb := joinLines_lineBytes _ hout
        have hlb := dupLoop_lineBytes pfx rest first 1 (by omega)
        have hsb : lineBytes (first :: rest) = byteLength text + 1 := by
          rw [← hsp, splitLines_lineBytes]
        rw [lineBytes_cons] at hsb
        have hlen : countLines text = 1 + rest.length := by
          rw [countLines_eq_count, ← length_splitLines, hsp, List.length_cons]
          omega
        rw [hlen]
        have hone : 1 * (byteLength first + 1) = byteLength first + 1 := by ring
        rw [hone] at hlb
        omega

/-! ## Line counting for compressor outputs -/

theorem count_joinLines (ls : List JSStr) (h : ∀ l ∈ ls, '\n' ∉ l) :
    (joinLines ls).count '\n' = ls.length - 1 := by
  induction ls with
  | nil => simp [joinLines]
  | cons l rest ih =>
    cases rest with
    | nil =>
      simp only [joinLines, List.length_singleton]
      rw [List.count_eq_zero_of_not_mem (h l (List.mem_cons_self _ _))]
    | cons l2 rest2 =>
      rw [joinLines_cons _ _ (by simp), List.count_append, List.count_cons]
      rw [List.count_eq_zero_of_not_mem (h l (List.mem_cons_self _ _))]
      rw [ih fun x hx => h x (List.mem_cons_of_mem _ hx)]
      simp

theorem countLines_joinLines_le (ls : List JSStr) (h : ∀ l ∈ ls, '\n' ∉ l) :
    countLines (joinLines ls) ≤ max 1 ls.length := by
  rw [countLines_eq_count, count_joinLines ls h]
  omega

theorem dupFlush_length_le (pfx prev : JSStr) (rc : Nat) (h : 1 ≤ rc) :
    (dupFlush pfx prev rc).length ≤ rc := by
  unfold dupFlush
  split <;> simp <;> omega

theorem dupLoop_length_le (pfx : JSStr) (rest : List JSStr) :
    ∀ (prev : JSStr) (rc : Nat), 1 ≤ rc →
      (dupLoop pfx prev rc rest).1.length ≤ rc + rest.length := by
  induction rest with
  | nil =>
    intro prev rc h
    simpa [dupLoop] using dupFlush_length_le pfx prev rc h
  | cons line rest ih =>
    intro prev rc h
    unfold dupLoop
    split
    · have := ih prev (rc + 1) (by omega)
      rw [List.length_cons]
      omega
    · simp only
      rw [List.length_append, List.length_cons]
      have h1 := dupFlush_length_le pfx prev rc h
      have h2 := ih line 1 (by omega)
      omega

theorem dupFlush_no_newline (pfx prev : JSStr) (rc : Nat)
    (hp : '\n' ∉ pfx) (hprev : '\n' ∉ prev) :
    ∀ l ∈ dupFlush pfx prev rc, '\n' ∉ l := by
  intro l hmem
  unfold dupFlush at hmem
  split at hmem
  · rcases List.mem_cons.1 hmem with h | h
    · subst h; exact hprev
    · rw [List.mem_singleton] at h
      subst h
      exact dupMarker_no_newline pfx _ hp
  · rw [List.mem_singleton] at hmem
    subst hmem
    exact hprev

theorem dupLoop_no_newline (pfx : JSStr) (rest : List JSStr) :
    ∀ (prev : JSStr) (rc : Nat), '\n' ∉ pfx → '\n' ∉ prev →
      (∀ l ∈ rest, '\n' ∉ l) →
      ∀ l ∈ (dupLoop pfx prev rc rest).1, '\n' ∉ l := by
  induction rest with
  | nil =>
    intro prev rc hp hprev _ l hmem
    exact dupFlush_no_newline pfx prev rc hp hprev l hmem
  | cons line rest ih =>
    intro prev rc hp hprev hrest l hmem
    unfold dupLoop at hmem
    split at hmem
    · exact ih prev (rc + 1) hp hprev (fun x hx => hrest x (List.mem_cons_of_mem _ hx)) l hmem
    · simp only at hmem
      rcases List.mem_append.1 hmem with h | h
      · exact dupFlush_no_newline pfx prev rc hp hprev l h
      · exact ih line 1 hp (hrest line (List.mem_cons_self _ _))
          (fun x hx => hrest x (List.mem_cons_of_mem _ hx)) l h

theorem compressDup_lines_le (text pfx : JSStr) (hnl : '\n' ∉ pfx) :
    countLines (compressConsecutiveDuplicateLines text pfx).text ≤ countLines text := by
  unfold compressConsecutiveDuplicateLines
  split
  · simp
  · cases hsp : splitLines text with
    | nil => exact absurd hsp (splitLines_ne_nil text)
    | cons first rest =>
      simp only
      have hnlines : ∀ l ∈ (dupLoop pfx first 1 rest).1, '\n' ∉ l := by
        apply dupLoop_no_newline pfx rest first 1 hnl
        · exact splitLines_no_newline text first (hsp ▸ List.mem_cons_self _ _)
        · intro l hl
          exact splitLines_no_newline text l (hsp ▸ List.mem_cons_of_mem _ hl)
      have h1 := countLines_joinLines_le _ hnlines
      have h2 := dupLoop_length_le pfx rest first 1 (by omega)
      have h3 : countLines text = 1 + rest.length := by
        rw [countLines_eq_count, ← length_splitLines, hsp, List.length_cons]
        omega
      omega

/-! ## Range facts for the block matcher -/

theorem extendBlocks_le (lines : List JSStr) (i size : Nat) :
    ∀ (fuel b : Nat),
      extendBlocks lines i size b fuel = b ∨
        (b + 1 ≤ extendBlocks lines i size b fuel ∧
          i + (extendBlocks lines i size b fuel - 1) * size ≤ lines.length) := by
  intro fuel
  induction fuel with
  | zero => intro b; left; rfl
  | succ fuel ih =>
    intro b
    unfold extendBlocks
    split
    · next hcond =>
      rcases ih (b + 1) with h | h
      · right
        rw [h]
        refine ⟨by omega, ?_⟩
        have hb : b + 1 - 1 = b := by omega
        rw [hb]
        exact hcond.1
      · right
        exact ⟨by omega, h.2⟩
    · left; rfl

theorem findBlock_facts (lines : List JSStr) (i : Nat) :
    ∀ size : Nat,
      0 < (findBlock lines i size).1 → 2 ≤ (findBlock lines i size).2 →
        2 ≤ (findBlock lines i size).1 ∧
          i + (findBlock lines i size).2 * (findBlock lines i size).1 ≤ lines.length := by
  intro size
  induction size using Nat.strong_induction_on with
  | _ size ih =>
    match size with
    | 0 => intro h _; simp [findBlock] at h
    | 1 => intro h _; simp [findBlock] at h
    | s + 2 =>
      unfold findBlock
      split
      · intro _ h2
        simp only at h2 ⊢
        rcases extendBlocks_le lines i (s + 2) (lines.length + 1) 2 with h | h
        · rw [h] at h2
          omega
        · refine ⟨by omega, ?_⟩
          have hfix : extendBlocks lines i (s + 2) 2 (lines.length + 1) - 1 + 1 - 1 =
              extendBlocks lines i (s + 2) 2 (lines.length + 1) - 1 := by omega
          have := h.2
          omega
      · exact ih (s + 1) (by omega)

/-- Byte accounting for one collapsing step of the block compressor: the
emitted block copy plus marker line cost at most the consumed `b * s` input
lines plus the per-line overhead allowance. -/
theorem blockStep_bytes (lines : List JSStr) (pfx : JSStr) (i s b R : Nat)
    (hs2 : 2 ≤ s) (hb2 : 2 ≤ b) (hrange : i + b * s ≤ lines.length)
    (hrec : R ≤ lineBytes (lines.drop (i + b * s)) +
      (lines.length - (i + b * s)) * (2 * byteLength pfx + 41)) :
    lineBytes ((lines.drop i).take s) + (byteLength (blockMarker pfx s (b - 1)) + 1) + R ≤
      lineBytes (lines.drop i) + (lines.length - i) * (2 * byteLength pfx + 41) := by
  have hsm : s ≤ b * s := Nat.le_mul_of_pos_left s (by omega)
  have hbm : b ≤ b * s := Nat.le_mul_of_pos_right b (by omega)
  have hm4 : 2 * 2 ≤ b * s := Nat.mul_le_mul hb2 hs2
  have key1 : lineBytes (lines.drop i) =
      lineBytes ((lines.drop i).take (b * s)) + lineBytes (lines.drop (i + b * s)) := by
    rw [lineBytes_take_drop (lines.drop i) (b * s), List.drop_drop]
  have key2 : lineBytes ((lines.drop i).take s) + (b * s - s) ≤
      lineBytes ((lines.drop i).take (b * s)) := by
    have hsum : b * s = s + (b * s - s) := by omega
    rw [hsum, List.take_add, lineBytes_append]
    have hlen2 : (((lines.drop i).drop s).take (b * s - s)).length = b * s - s := by
      rw [List.length_take, List.drop_drop, List.length_drop]
      have : b * s - s ≤ lines.length - (i + s) := by omega
      omega
    have := length_le_lineBytes (((lines.drop i).drop s).take (b * s - s))
    omega
  have key3 := blockMarker_byteLength pfx s (b - 1) (by omega) (by omega)
  have hsplit : (lines.length - i) * (2 * byteLength pfx + 41) =
      (lines.length - (i + b * s)) * (2 * byteLength pfx + 41) +
        (b * s) * (2 * byteLength pfx + 41) := by
    rw [show lines.length - i = (lines.length - (i + b * s)) + b * s from by omega,
      Nat.add_mul]
  have hm41 : (b * s) * 41 ≤ (b * s) * (2 * byteLength pfx + 41) :=
    Nat.mul_le_mul_left _ (by omega)
  have h4K : 4 * (2 * byteLength pfx + 41) ≤ (b * s) * (2 * byteLength pfx + 41) :=
    Nat.mul_le_mul_right _ (by omega)
  omega

theorem blockLoop_lineBytes (lines : List JSStr) (pfx : JSStr) (mbs : Nat) :
    ∀ (fuel i : Nat),
      lineBytes (blockLoop lines pfx mbs i fuel).1 ≤
        lineBytes (lines.drop i) + (lines.length - i) * (2 * byteLength pfx + 41) := by
  intro fuel
  induction fuel with
  | zero => intro i; simp [blockLoop, lineBytes]
  | succ fuel ih =>
    intro i
    unfold blockLoop
    split
    · next hi =>
      simp only
      split
      · next hfb =>
        obtain ⟨hs2, hrange⟩ :=
          findBlock_facts lines i (min mbs ((lines.length - i) / 2)) hfb.1 hfb.2
        rw [lineBytes_append, lineBytes_cons]
        have hstep := blockStep_bytes lines pfx i
          (findBlock lines i (min mbs ((lines.length - i) / 2))).1
          (findBlock lines i (min mbs ((lines.length - i) / 2))).2
          (lineBytes (blockLoop lines pfx mbs
            (i + (findBlock lines i (min mbs ((lines.length - i) / 2))).2 *
              (findBlock lines i (min mbs ((lines.length - i) / 2))).1) fuel).1)
          hs2 hfb.2 hrange (ih _)
        omega
      · rw [lineBytes_cons]
        have hrec := ih (i + 1)
        have hgd : lines.getD i [] = lines[i] := List.getD_eq_getElem lines [] hi
        have hkey : lineBytes (lines.drop i) =
            byteLength lines[i] + 1 + lineBytes (lines.drop (i + 1)) := by
          rw [List.drop_eq_getElem_cons hi, lineBytes_cons]
        have hsp2 : (lines.length - i) * (2 * byteLength pfx + 41) =
            (lines.length - (i + 1)) * (2 * byteLength pfx + 41) +
              (2 * byteLength pfx + 41) := by
          rw [show lines.length - i = (lines.length - (i + 1)) + 1 from by omega,
            Nat.add_mul, Nat.one_mul]
        rw [hgd]
        omega
    · simp [lineBytes]

theorem blockLoop_length_le (lines : List JSStr) (pfx : JSStr) (mbs : Nat) :
    ∀ (fuel i : Nat),
      (blockLoop lines pfx mbs i fuel).1.length ≤ lines.length - i := by
  intro fuel
  induction fuel with
  | zero => intro i; simp [blockLoop]
  | succ fuel ih =>
    intro i
    unfold blockLoop
    split
    · next hi =>
      simp only
      split
      · next hfb =>
        obtain ⟨hs2, hrange⟩ :=
          findBlock_facts lines i (min mbs ((lines.length - i) / 2)) hfb.1 hfb.2
        rw [List.length_append, List.length_cons, List.length_take]
        have hrec := ih (i + (findBlock lines i (min mbs ((lines.length - i) / 2))).2 *
          (findBlock lines i (min mbs ((lines.length - i) / 2))).1)
        have hsm : (findBlock lines i (min mbs ((lines.length - i) / 2))).1 + 2 ≤
            (findBlock lines i (min mbs ((lines.length - i) / 2))).2 *
              (findBlock lines i (min mbs ((lines.length - i) / 2))).1 := by
          have := Nat.mul_le_mul hfb.2 (le_refl
            (findBlock lines i (min mbs ((lines.length - i) / 2))).1)
          omega
        have hmin := Nat.min_le_left
          (findBlock lines i (min mbs ((lines.length - i) / 2))).1
          ((lines.drop i).length)
        omega
      · rw [List.length_cons]
        have hrec := ih (i + 1)
        omega
    · simp

theorem blockLoop_no_newline (lines : List JSStr) (pfx : JSStr) (mbs : Nat)
    (hp : '\n' ∉ pfx) (hl : ∀ l ∈ lines, '\n' ∉ l) :
    ∀ (fuel i : Nat), ∀ l ∈ (blockLoop lines pfx mbs i fuel).1, '\n' ∉ l := by
  intro fuel
  induction fuel with
  | zero => intro i l hmem; simp [blockLoop] at hmem
  | succ fuel ih =>
    intro i l hmem
    unfold blockLoop at hmem
    split at hmem
    · simp only at hmem
      split at hmem
      · rcases List.mem_append.1 hmem with h | h
        · exact hl l (List.mem_of_mem_drop (List.mem_of_mem_take h))
        · rcases List.mem_cons.1 h with h | h
          · subst h; exact blockMarker_no_newline pfx _ _ hp
          · exact ih _ l h
      · rcases List.mem_cons.1 hmem with h | h
        · subst h
          next hi _ =>
            rw [List.getD_eq_getElem lines [] hi]
            exact hl _ (List.getElem_mem hi)
        · exact ih _ l h
    · simp at hmem

theorem compressBlocks_bytes (text pfx : JSStr) (mbs msl : Nat) :
    byteLength (compressConsecutiveRepeatedBlocks text pfx mbs msl).text ≤
      byteLength text + countLines text * (2 * byteLength pfx + 41) := by
  unfold compressConsecutiveRepeatedBlocks
  simp only
  split
  · simp
  · simp only
    by_cases hout : (blockLoop (splitLines text) pfx mbs 0 (splitLines text).length).1 = []
    · rw [hout]
      simp [joinLines, byteLength]
    · have hjb := joinLines_lineBytes _ hout
      have hlb := blockLoop_lineBytes (splitLines text) pfx mbs (splitLines text).length 0
      rw [List.drop_zero, Nat.sub_zero] at hlb
      have hsb := splitLines_lineBytes text
      have hlen : (splitLines text).length = countLines text :=
        (countLines_eq_length_splitLines text).symm
      rw [← hlen]
      omega

theorem compressBlocks_lines_le (text pfx : JSStr) (mbs msl : Nat) (hnl : '\n' ∉ pfx) :
    countLines (compressConsecutiveRepeatedBlocks text pfx mbs msl).text ≤
      countLines text := by
  unfold compressConsecutiveRepeatedBlocks
  simp only
  split
  · simp
  · simp only
    have hnlines : ∀ l ∈ (blockLoop (splitLines text) pfx mbs 0
        (splitLines text).length).1, '\n' ∉ l :=
      blockLoop_no_newline (splitLines text) pfx mbs hnl
        (splitLines_no_newline text) (splitLines text).length 0
    have h1 := countLines_joinLines_le _ hnlines
    have h2 := blockLoop_length_le (splitLines text) pfx mbs (splitLines text).length 0
    have h3 : (splitLines text).length = countLines text :=
      (countLines_eq_length_splitLines text).symm
    have h4 := countLines_pos text
    omega

/-! ## Line-list characterization of the head and tail slices -/

theorem splitLines_cons_newline (rest : JSStr) :
    splitLines ('\n' :: rest) = [] :: splitLines rest := by
  conv_lhs => unfold splitLines
  rw [if_pos rfl]

theorem splitLines_cons_other (c : Char) (rest : JSStr) (h : ¬c = '\n')
    (l0 : JSStr) (ls0 : List JSStr) (hsp : splitLines rest = l0 :: ls0) :
    splitLines (c :: rest) = (c :: l0) :: ls0 := by
  unfold splitLines
  rw [if_neg h, hsp]

theorem splitLines_single (l : JSStr) (h : '\n' ∉ l) : splitLines l = [l] := by
  induction l with
  | nil => rfl
  | cons c rest ih =>
    have hcne : ¬c = '\n' := by
      intro e
      subst e
      exact h (List.mem_cons_self _ _)
    exact splitLines_cons_other c rest hcne rest []
      (ih fun hm => h (List.mem_cons_of_mem _ hm))

theorem splitLines_append_newline (l t : JSStr) (h : '\n' ∉ l) :
    splitLines (l ++ '\n' :: t) = l :: splitLines t := by
  induction l with
  | nil =>
    rw [List.nil_append]
    exact splitLines_cons_newline t
  | cons c rest ih =>
    have hcne : ¬c = '\n' := by
      intro e
      subst e
      exact h (List.mem_cons_self _ _)
    rw [List.cons_append]
    exact splitLines_cons_other c _ hcne rest (splitLines t)
      (ih fun hm => h (List.mem_cons_of_mem _ hm))

theorem splitLines_joinLines (ls : List JSStr) (hne : ls ≠ [])
    (h : ∀ l ∈ ls, '\n' ∉ l) : splitLines (joinLines ls) = ls := by
  induction ls with
  | nil => exact absurd rfl hne
  | cons l rest ih =>
    cases rest with
    | nil => exact splitLines_single l (h l (List.mem_cons_self _ _))
    | cons l2 rest2 =>
      rw [joinLines_cons _ _ (by simp)]
      rw [splitLines_append_newline l _ (h l (List.mem_cons_self _ _))]
      rw [ih (by simp) fun x hx => h x (List.mem_cons_of_mem _ hx)]

theorem takeLines_eq_joinLines_take (s : JSStr) :
    ∀ k, 1 ≤ k → takeLines k s = joinLines ((splitLines s).take k) := by
  induction s with
  | nil =>
    intro k hk
    obtain ⟨j, rfl⟩ : ∃ j, k = j + 1 := ⟨k - 1, by omega⟩
    simp [takeLines, splitLines, joinLines]
  | cons c rest ih =>
    intro k hk
    obtain ⟨j, rfl⟩ : ∃ j, k = j + 1 := ⟨k - 1, by omega⟩
    by_cases hc : c = '\n'
    · subst hc
      rw [splitLines_cons_newline]
      by_cases hj : j = 0
      · subst hj
        rw [takeLines_one_newline]
        simp [joinLines]
      · rw [takeLines_cons_newline _ _ (by omega), List.take_succ_cons,
          joinLines_cons _ _ ?hne]
        case hne =>
          intro he
          rw [List.take_eq_nil_iff] at he
          rcases he with he | he
          · exact hj he
          · exact splitLines_ne_nil rest he
        simp only [Nat.add_sub_cancel]
        rw [ih j (by omega)]
        rfl
    · cases hsp : splitLines rest with
      | nil => exact absurd hsp (splitLines_ne_nil rest)
      | cons l0 ls0 =>
        rw [splitLines_cons_other c rest hc l0 ls0 hsp,
          takeLines_cons_other _ _ _ hc, List.take_succ_cons,
          ih (j + 1) (by omega), hsp, List.take_succ_cons]
        cases htk : ls0.take j with
        | nil => simp [joinLines]
        | cons t0 ts =>
          rw [joinLines_cons l0 _ (by simp), joinLines_cons (c :: l0) _ (by simp)]
          simp

theorem joinLines_snoc (ls : List JSStr) (l : JSStr) (h : ls ≠ []) :
    joinLines (ls ++ [l]) = joinLines ls ++ '\n' :: l := by
  induction ls with
  | nil => exact absurd rfl h
  | cons x rest ih =>
    cases rest with
    | nil => rfl
    | cons y rest2 =>
      rw [List.cons_append, joinLines_cons x _ (by simp),
        joinLines_cons x _ (by simp), ih (by simp)]
      simp

theorem reverse_joinLines (ls : List JSStr) :
    (joinLines ls).reverse = joinLines ((ls.map List.reverse).reverse) := by
  induction ls with
  | nil => rfl
  | cons l rest ih =>
    cases rest with
    | nil => rfl
    | cons l2 rest2 =>
      rw [joinLines_cons l _ (by simp)]
      rw [List.map_cons, List.reverse_cons]
      rw [joinLines_snoc _ _ (by simp)]
      rw [← ih]
      simp

theorem sliceHeadLines_eq (t : JSStr) (k : Nat) (hk : 1 ≤ k) :
    sliceHeadLines t k (countLines t) = joinLines ((splitLines t).take k) := by
  unfold sliceHeadLines
  rw [if_neg (by omega)]
  split
  · next hle =>
    have hlen : (splitLines t).length ≤ k := by
      rw [← countLines_eq_length_splitLines]
      omega
    rw [List.take_of_length_le hlen, joinLines_splitLines]
  · exact takeLines_eq_joinLines_take t k hk

theorem sliceTailLines_eq (s : JSStr) (k : Nat) (hk : 1 ≤ k) :
    sliceTailLines s k =
      joinLines ((splitLines s).drop ((splitLines s).length - k)) := by
  unfold sliceTailLines
  rw [if_neg (by omega)]
  have h1 : s.reverse = joinLines (((splitLines s).map List.reverse).reverse) := by
    conv_lhs => rw [← joinLines_splitLines s]
    exact reverse_joinLines _
  have h2 : splitLines (joinLines (((splitLines s).map List.reverse).reverse)) =
      ((splitLines s).map List.reverse).reverse := by
    apply splitLines_joinLines
    · simp [splitLines_ne_nil]
    · intro l hl
      rw [List.mem_reverse, List.mem_map] at hl
      obtain ⟨x, hx, rfl⟩ := hl
      rw [List.mem_reverse]
      exact splitLines_no_newline s x hx
  rw [h1, takeLines_eq_joinLines_take _ k hk, h2, reverse_joinLines]
  congr 1
  rw [List.take_reverse, List.map_reverse, List.reverse_reverse,
    List.map_drop, List.map_map, List.length_map]
  have : ((splitLines s).map (List.reverse ∘ List.reverse)) = splitLines s := by
    simp
  rw [this]

theorem byteLength_takeLines_le (s : JSStr) : ∀ k, byteLength (takeLines k s) ≤ byteLength s := by
  induction s with
  | nil => intro k; simp [takeLines]
  | cons c rest ih =>
    intro k
    unfold takeLines
    by_cases hc : c = '\n'
    · rw [if_pos hc]
      split
      · simp [byteLength]
      · rw [byteLength_cons, byteLength_cons]
        have := ih (k - 1)
        omega
    · rw [if_neg hc, byteLength_cons, byteLength_cons]
      have := ih k
      omega

theorem byteLength_sliceHeadLines_le (t : JSStr) (k tot : Nat) :
    byteLength (sliceHeadLines t k tot) ≤ byteLength t := by
  unfold sliceHeadLines
  split
  · simp [byteLength]
  · split
    · omega
    · exact byteLength_takeLines_le t k

theorem byteLength_sliceTailLines_le (t : JSStr) (k : Nat) :
    byteLength (sliceTailLines t k) ≤ byteLength t := by
  unfold sliceTailLines
  split
  · simp [byteLength]
  · rw [byteLength_reverse]
    have := byteLength_takeLines_le t.reverse k
    rw [byteLength_reverse] at this
    exact this

theorem lineCandidate_bytes (t : JSStr) (limits : Limits) :
    byteLength (lineCandidate t limits) ≤
      byteLength t + (2 * byteLength limits.marker + 18 + countLines t) := by
  unfold lineCandidate
  simp only
  split
  · next hom =>
    have homgt : 0 < countLines t -
        (computeKeepLineCounts (countLines t) limits.maxLines).1 -
        (computeKeepLineCounts (countLines t) limits.maxLines).2 := by
      unfold omittedCount at hom
      exact hom
    have homeq : omittedCount t limits.maxLines = countLines t -
        (computeKeepLineCounts (countLines t) limits.maxLines).1 -
        (computeKeepLineCounts (countLines t) limits.maxLines).2 := rfl
    rw [byteLength_append, byteLength_cons, byteLength_append, byteLength_cons]
    have hnb : utf8CharBytes '\n' = 1 := by decide
    have hob := omissionMarker_byteLength limits.marker
      (omittedCount t limits.maxLines) (by omega)
    have homle : omittedCount t limits.maxLines ≤ countLines t := by omega
    by_cases hkh : (computeKeepLineCounts (countLines t) limits.maxLines).1 = 0
    · rw [hkh]
      have hhead : sliceHeadLines t 0 (countLines t) = [] := by
        unfold sliceHeadLines
        rw [if_pos rfl]
      rw [hhead]
      have htail := byteLength_sliceTailLines_le t
        (computeKeepLineCounts (countLines t) limits.maxLines).2
      have hznil : byteLength ([] : JSStr) = 0 := rfl
      omega
    · by_cases hkt : (computeKeepLineCounts (countLines t) limits.maxLines).2 = 0
      · rw [hkt]
        have htail : sliceTailLines t 0 = [] := by
          unfold sliceTailLines
          rw [if_pos rfl]
        rw [htail]
        have hhead := byteLength_sliceHeadLines_le t
          (computeKeepLineCounts (countLines t) limits.maxLines).1 (countLines t)
        have hznil : byteLength ([] : JSStr) = 0 := rfl
        omega
      · -- both windows nonempty: disjoint prefix/suffix of the line list
        have hL : (splitLines t).length = countLines t :=
          (countLines_eq_length_splitLines t).symm
        rw [sliceHeadLines_eq t _ (by omega), sliceTailLines_eq t _ (by omega)]
        have htne : (splitLines t).take
            (computeKeepLineCounts (countLines t) limits.maxLines).1 ≠ [] := by
          intro he
          rw [List.take_eq_nil_iff] at he
          rcases he with he | he
          · exact hkh he
          · exact splitLines_ne_nil t he
        have hdne : (splitLines t).drop ((splitLines t).length -
            (computeKeepLineCounts (countLines t) limits.maxLines).2) ≠ [] := by
          intro he
          rw [List.drop_eq_nil_iff] at he
          omega
        have hhb := joinLines_lineBytes _ htne
        have htb := joinLines_lineBytes _ hdne
        have hmono := lineBytes_take_mono (splitLines t)
          (show (computeKeepLineCounts (countLines t) limits.maxLines).1 ≤
            (splitLines t).length -
              (computeKeepLineCounts (countLines t) limits.maxLines).2 by omega)
        have hsplit := lineBytes_take_drop (splitLines t)
          ((splitLines t).length -
            (computeKeepLineCounts (countLines t) limits.maxLines).2)
        have hlb := splitLines_lineBytes t
        omega
  · omega

theorem hardCapped_bytes (c : JSStr) (limits : Limits) :
    byteLength (hardCapped c limits) ≤
      byteLength c + (byteLength (hardMarker limits) + 1) := by
  unfold hardCapped
  split
  · rw [byteLength_append, byteLength_cons]
    have h1 := byteLength_take_le c (limits.maxChars - (hardMarker limits).length - 2)
    have h2 : utf8CharBytes '\n' = 1 := by decide
    omega
  · omega

theorem truncateText_bytes (t : JSStr) (limits : Limits) :
    byteLength ((truncateText t limits).text) ≤
      byteLength t + (2 * byteLength limits.marker + 18 + countLines t) +
        (byteLength (hardMarker limits) + 1) := by
  simp only [truncateText]
  split
  · simp only
    omega
  · simp only
    have h1 := hardCapped_bytes (lineCandidate t limits) limits
    have h2 := lineCandidate_bytes t limits
    omega

/-- Upper bound on the byte overhead the reduction pipeline can add on top
of the input: one duplicate-run or block marker per consumed input line in
each compression pass, plus the omission marker line and the hard-cap
marker line. -/
def markerOverheadBound (text : JSStr) (limits : Limits) : Nat :=
  2 * countLines text * (2 * byteLength limits.marker + 41) +
    (2 * byteLength limits.marker + 18 + countLines text) +
    (byteLength (hardMarker limits) + 1)

theorem compressionStep_bytes (text : JSStr) (limits : Limits)
    (hnl : '\n' ∉ limits.marker) :
    byteLength (compressionStep text limits).1 ≤
      byteLength text +
        2 * countLines text * (2 * byteLength limits.marker + 41) := by
  unfold compressionStep
  split
  · simp only
    have h1 := compressDup_bytes text limits.marker
    have h2 := compressBlocks_bytes
      (compressConsecutiveDuplicateLines text limits.marker).text limits.marker
      limits.compressBlockMaxSize limits.compressBlockMaxScanLines
    have h3 := compressDup_lines_le text limits.marker hnl
    have h4 : countLines (compressConsecutiveDuplicateLines text limits.marker).text *
        (2 * byteLength limits.marker + 41) ≤
        countLines text * (2 * byteLength limits.marker + 41) :=
      Nat.mul_le_mul_right _ h3
    have h5 : countLines text * (2 * byteLength limits.marker + 41) +
        countLines text * (2 * byteLength limits.marker + 41) =
        2 * countLines text * (2 * byteLength limits.marker + 41) := by ring
    omega
  · simp

theorem compressionStep_lines_le (text : JSStr) (limits : Limits)
    (hnl : '\n' ∉ limits.marker) :
    countLines (compressionStep text limits).1 ≤ countLines text := by
  unfold compressionStep
  split
  · simp only
    have h1 := compressDup_lines_le text limits.marker hnl
    have h2 := compressBlocks_lines_le
      (compressConsecutiveDuplicateLines text limits.marker).text limits.marker
      limits.compressBlockMaxSize limits.compressBlockMaxScanLines hnl
    omega
  · simp

/-- Claim C5 (amended): reduction can grow the byte length, but only by the
overhead of the marker lines it inserts; for a newline-free `markerPrefix`
the output byte length never exceeds the input byte length plus
`markerOverheadBound` (linear in the input line count and the marker
sizes).  As stated the claim is false: a compressed or truncated result can
be byte-longer than its input whenever the removed content is shorter than
the inserted marker lines. -/
theorem claim5_amended_overhead (text : JSStr) (limits : Limits)
    (hnl : '\n' ∉ limits.marker) :
    byteLength ((reduceText text limits).text) ≤
      byteLength text + markerOverheadBound text limits := by
  unfold reduceText markerOverheadBound
  by_cases h1 : isWithinLimits (getSizeMeta text) limits
  · rw [if_pos h1]
    simp only
    omega
  · rw [if_neg h1]
    by_cases h2 : isWithinLimits (getSizeMeta (compressionStep text limits).1) limits
    · rw [if_pos h2]
      simp only
      have := compressionStep_bytes text limits hnl
      omega
    · rw [if_neg h2]
      simp only
      have hb := compressionStep_bytes text limits hnl
      have hl := compressionStep_lines_le text limits hnl
      have ht := truncateText_bytes (compressionStep text limits).1 limits
      omega

theorem claim5_amended_overhead_witness :
    ('\n' ∉ ("---".data : JSStr)) ∧
      byteLength ((reduceText "X\nX\nX\nX\nX".data
          ⟨10000, 10000, 4, true, 20, 5000, "---".data⟩).text) ≤
        byteLength "X\nX\nX\nX\nX".data +
          markerOverheadBound "X\nX\nX\nX\nX".data
            ⟨10000, 10000, 4, true, 20, 5000, "---".data⟩ :=
  ⟨by decide, claim5_amended_overhead "X\nX\nX\nX\nX".data
    ⟨10000, 10000, 4, true, 20, 5000, "---".data⟩ (by decide)⟩
